import Mathlib

/-!
Verification of the unlinked-concepts-to-document pipeline
(`tbta_missing_concepts_to_word.py`).

The development shallowly embeds the two core components of the script:

* the record parser `import_concepts` (line dispatch, the `CONCEPT_REGEX`
  header grammar, grouping, warnings, and the mutable in-progress record,
  modelled as a store of records addressed by identifiers so that object
  identity and post-append mutation are observable), and
* the sentence locator `add_verse_sentences` (the `SENTENCE_REGEX`-based
  splitter, the word-boundary inflection-suffix search, and the
  matched/unmatched fallback decision).

Strings are modelled as `List Char`; Python line iteration is modelled on
lines with their trailing newline removed (the `$` anchor of the header
regex matches just before a trailing newline, so the two views agree).
Character classes (`\w`, upper case, whitespace, lower-casing) are modelled
at ASCII granularity, matching the ASCII-only data the script consumes.
-/

/-! ## Character classes -/

/-- Sentence-terminal punctuation, the `[^.?!]` / `[.?!]` class of
`SENTENCE_REGEX`. -/
def isTermCh (c : Char) : Bool := c == '.' || c == '?' || c == '!'

def notTerm (c : Char) : Bool := !isTermCh c

/-- Whitespace in the sense of the regex `\S` class (ASCII). -/
def isWsCh (c : Char) : Bool :=
  c == ' ' || c == '\t' || c == '\n' || c == '\r' || c == '\x0b' || c == '\x0c'

def notWs (c : Char) : Bool := !isWsCh c

/-- ASCII word character, the `\w` class backing the `\b` anchors of the
word-search regex. -/
def isWordCh (c : Char) : Bool :=
  (65 ≤ c.toNat && c.toNat ≤ 90) || (97 ≤ c.toNat && c.toNat ≤ 122) ||
    (48 ≤ c.toNat && c.toNat ≤ 57) || c.toNat == 95

/-- ASCII upper-case letter (`[A-Z]`, and `str.isupper` on the data the
script sees). -/
def isUpperCh (c : Char) : Bool := 65 ≤ c.toNat && c.toNat ≤ 90

/-- ASCII letter, the `[a-zA-Z]` class of `CONCEPT_REGEX`. -/
def isAsciiLetter (c : Char) : Bool :=
  (65 ≤ c.toNat && c.toNat ≤ 90) || (97 ≤ c.toNat && c.toNat ≤ 122)

def isDigitCh (c : Char) : Bool := 48 ≤ c.toNat && c.toNat ≤ 57

/-- ASCII lower-casing, as applied by `re.IGNORECASE` matching on the
script's ASCII data. -/
def lowCh (c : Char) : Char :=
  match c with
  | 'A' => 'a' | 'B' => 'b' | 'C' => 'c' | 'D' => 'd' | 'E' => 'e'
  | 'F' => 'f' | 'G' => 'g' | 'H' => 'h' | 'I' => 'i' | 'J' => 'j'
  | 'K' => 'k' | 'L' => 'l' | 'M' => 'm' | 'N' => 'n' | 'O' => 'o'
  | 'P' => 'p' | 'Q' => 'q' | 'R' => 'r' | 'S' => 's' | 'T' => 't'
  | 'U' => 'u' | 'V' => 'v' | 'W' => 'w' | 'X' => 'x' | 'Y' => 'y'
  | 'Z' => 'z' | c => c

def lows (s : List Char) : List Char := s.map lowCh

/-- The `[.a-zA-Z0-9- ]` class of `CONCEPT_REGEX` (lemma body characters). -/
def conceptClass (c : Char) : Bool :=
  c == '.' || isAsciiLetter c || isDigitCh c || c == '-' || c == ' '

/-! ## List-of-char helpers -/

/-- View of a `String` literal as the `List Char` representation used throughout. -/
def strL (s : String) : List Char := s.data

/-- Python `str.startswith`. -/
def startsW (p s : List Char) : Bool := s.take p.length == p

/-- Python `str.strip()` (ASCII whitespace). -/
def trim (s : List Char) : List Char :=
  ((s.dropWhile isWsCh).reverse.dropWhile isWsCh).reverse

/-- Python `str.rindex(c)` (index of last occurrence). -/
def rIndexOf (s : List Char) (c : Char) : Option Nat :=
  match s.reverse.findIdx? (· == c) with
  | some j => some (s.length - 1 - j)
  | none => none

/-- Python `str.index(c, start)` (first occurrence at or after `start`). -/
def idxFrom (s : List Char) (start : Nat) (c : Char) : Option Nat :=
  match (s.drop start).findIdx? (· == c) with
  | some j => some (start + j)
  | none => none

/-! ## Sentence splitting

`SENTENCE_REGEX = re.compile(r'([^.?!]+[.?!]\S*) ?')`, consumed with
`findall`.  A match is: a maximal nonempty run of non-terminal characters,
one terminal character, the following maximal run of non-whitespace
characters, and then one optional literal space which is consumed but not
part of the captured group. -/

/-- The optional trailing `' ?'` of `SENTENCE_REGEX`. -/
def consumeSp : List Char → List Char
  | ' ' :: r => r
  | r => r

/-- One `findall` scan step, fuelled so that the definition is structurally
recursive (each step consumes at least two characters, so `s.length` fuel
is always enough; see `splitSentsFuel_congr`). -/
def splitSentsFuel : Nat → List Char → List (List Char)
  | 0, _ => []
  | fuel + 1, s =>
    match (s.dropWhile isTermCh).dropWhile notTerm with
    | [] => []
    | t :: r2 =>
      ((s.dropWhile isTermCh).takeWhile notTerm ++ t :: r2.takeWhile notWs)
        :: splitSentsFuel fuel (consumeSp (r2.dropWhile notWs))

/-- The full scan `SENTENCE_REGEX.findall(verse_text)`. -/
def splitSents (s : List Char) : List (List Char) := splitSentsFuel s.length s

/-! ## Word search

`word_regex = r'\b(' + re.escape(word) + r'(?:s|es|ed|d)?)\b'`, used with
`re.search(word_regex, sentence, re.IGNORECASE)`.  The span recorded is
`m.span(1)`; since group 1 starts at the match start it is
`(start, start + matched length)`.  `re.search` finds the leftmost match;
at a fixed position the optional suffix group tries the alternatives in
written order (`s`, `es`, `ed`, `d`) and finally the empty suffix. -/

/-- Word-character test on the optional character at a boundary position
(`none` = beyond the string, which `\b` treats as a non-word side). -/
def wordB : Option Char → Bool
  | some c => isWordCh c
  | none => false

/-- The `\b` anchor between an adjacent pair of (optional) characters. -/
def bdry (a b : Option Char) : Bool := wordB a != wordB b

/-- Case-insensitive literal-prefix test (the escaped pattern matched under
`re.IGNORECASE`). -/
def startsLow (pat s : List Char) : Bool := lows pat == lows (s.take pat.length)

/-- The suffix alternatives of `(?:s|es|ed|d)?` in backtracking order,
ending with the empty suffix. -/
def suffList : List (List Char) := [['s'], ['e', 's'], ['e', 'd'], ['d'], []]

/-- Character just before offset `n` of `s`, where `prev` is the character
preceding `s` itself. -/
def charAtPred (prev : Option Char) (s : List Char) (n : Nat) : Option Char :=
  if n = 0 then prev else s[n - 1]?

/-- Does `base` followed by the suffix alternative `suf` match at the head
of `s` (with preceding character `prev`), including the trailing `\b`? -/
def tryOne (base : List Char) (prev : Option Char) (s : List Char) (suf : List Char) : Bool :=
  startsLow (base ++ suf) s &&
    bdry (charAtPred prev s (base.length + suf.length)) s[base.length + suf.length]?

/-- Attempt a match of the whole word regex at the head of `s`; returns the
length of group 1 on success. -/
def matchLenAt (base : List Char) (prev : Option Char) (s : List Char) : Option Nat :=
  if bdry prev s.head? then
    (suffList.find? (tryOne base prev s)).map (fun suf => base.length + suf.length)
  else none

/-- Leftmost-match scan of `re.search`, tracking the previous character and
the current offset `i`; returns `m.span(1)`.  A match is attempted at every
offset, including the one just past the last character. -/
def searchAux (base : List Char) (prev : Option Char) (s : List Char) (i : Nat) :
    Option (Nat × Nat) :=
  match s with
  | [] => (matchLenAt base prev []).map (fun len => (i, i + len))
  | c :: r =>
    match matchLenAt base prev (c :: r) with
    | some len => some (i, i + len)
    | none => searchAux base (some c) r (i + 1)

/-- The search `re.search(word_regex, sentence, re.IGNORECASE)`, returning `m.span(1)`. -/
def wordSearch (base s : List Char) : Option (Nat × Nat) := searchAux base none s 0

/-! ## The sentence locator -/

/-- Outcome of the locator for one sentence/verse, as consumed by the
renderer: either a sentence containing the word together with the match
span to be set in bold, or the full verse to be highlighted for manual
review. -/
inductive MatchResult where
  | matched (sentence : List Char) (mstart mend : Nat)
  | unmatched (text : List Char)
deriving DecidableEq

/-- The per-sentence results of the `for sentence in SENTENCE_REGEX.findall`
loop: one `matched` entry for every sentence unit the word search hits. -/
def locateHits (base verseText : List Char) : List MatchResult :=
  (splitSents verseText).filterMap
    (fun sent => (wordSearch base sent).map (fun p => MatchResult.matched sent p.1 p.2))

/-- Core of `add_verse_sentences` after the reference split: search every
sentence unit of `verseText` for `base`; if none matches (`word_found`
stays false), fall back to a single `unmatched` entry carrying `fullVerse`
(the script passes `concept.verse`, i.e. the whole verse field, reference
included). -/
def locateText (base verseText fullVerse : List Char) : List MatchResult :=
  if (locateHits base verseText).isEmpty then [MatchResult.unmatched fullVerse]
  else locateHits base verseText

/-- Model of `add_verse_sentences`, lines 206-241: strip the sense tag at the last
hyphen of `concept.word` (`str.rindex` raises when absent, modelled as
`none`), split `concept.verse` into reference and text at the first space
at or after the first colon (`str.index` likewise raises when absent), and
run the per-sentence search. -/
def locate (word verse : List Char) : Option (List MatchResult) :=
  match rIndexOf word '-' with
  | none => none
  | some di =>
    match idxFrom verse 0 ':' with
    | none => none
    | some ci =>
      match idxFrom verse ci ' ' with
      | none => none
      | some vs => some (locateText (word.take di) (verse.drop (vs + 1)) verse)

/-! ## The record parser

`import_concepts`, lines 53-85.  Lines are dispatched on their prefixes in
the order of the `if`/`elif` chain.  The mutable `UnlinkedConcept` object
is modelled by a store (`List UnlinkedConcept`) addressed by identifiers,
with `current` the identifier of the in-progress record, so that aliasing
(the object stays current after being appended on a `Verse:` line) is
observable.  Attribute access on `None` (no in-progress record) is a
Python `AttributeError`, modelled as `Except.error`. -/

/-- Record built by `UnlinkedConcept.__init__`: `verse` and `sample` start empty. -/
structure UnlinkedConcept where
  group : List Char
  word : List Char
  gloss : List Char
  verse : List Char
  sample : List Char
deriving DecidableEq

/-- The lemma group of `CONCEPT_REGEX`: `[.a-zA-Z0-9- ]+?-[A-Z]`, i.e. a
nonempty class body followed by a hyphen and one upper-case letter. -/
def lemmaOk (l : List Char) : Bool :=
  match l.reverse with
  | u :: d :: rest => isUpperCh u && d == '-' && !rest.isEmpty && rest.all conceptClass
  | _ => false

/-- What may follow the lemma: either end of line, or the optional gloss
group `(?:  \'(.+?)\')?` — two spaces, a quote, a nonempty gloss, and a
closing quote at end of line. -/
def restOk (r : List Char) : Bool :=
  match r with
  | [] => true
  | a :: b :: q :: gs =>
    a == ' ' && b == ' ' && q == '\'' &&
      (match gs.reverse with
       | q2 :: _ :: _ => q2 == '\''
       | _ => false)
  | _ => false

/-- Gloss text extracted from a tail accepted by `restOk` (the `m[3]`
group), `none` when the gloss part is absent. -/
def glossOf (r : List Char) : Option (List Char) :=
  match r with
  | [] => none
  | _ :: _ :: _ :: gs => some gs.dropLast
  | _ => none

/-- Split point search for the lazy lemma group: the regex backtracking
tries lemma lengths in increasing order and keeps the first one after
which the rest of the line also matches. -/
def minSplitAux (tail : List Char) : Nat → Nat → Option Nat
  | 0, _ => none
  | fuel + 1, k =>
    if lemmaOk (tail.take k) && restOk (tail.drop k) then some k
    else minSplitAux tail fuel (k + 1)

/-- Literal-prefix stripper (for the fixed parts of `CONCEPT_REGEX`). -/
def dropLit (p s : List Char) : Option (List Char) :=
  if startsW p s then some (s.drop p.length) else none

/-- The header match `CONCEPT_REGEX.match(line)`:
`^Concept \(([a-zA-Z]+)\): ([.a-zA-Z0-9- ]+?-[A-Z])(?:  \'(.+?)\')?$`,
returning `(m[1], m[2], m[3])` on success. -/
def parseConceptLine (line : List Char) :
    Option (List Char × List Char × Option (List Char)) :=
  match dropLit (strL "Concept (") line with
  | none => none
  | some r1 =>
    if (r1.takeWhile isAsciiLetter).isEmpty then none
    else
      match dropLit (strL "): ") (r1.drop (r1.takeWhile isAsciiLetter).length) with
      | none => none
      | some tail =>
        match minSplitAux tail (tail.length + 1) 0 with
        | none => none
        | some k => some (r1.takeWhile isAsciiLetter, tail.take k, glossOf (tail.drop k))

/-- Grouping key, line 67: `'Proper Nouns' if m[1] == 'Noun' and
word[0].isupper() else (m[1] + 's')`. -/
def groupKey (cat word : List Char) : List Char :=
  if cat == strL "Noun" && isUpperCh (word.headD ' ') then strL "Proper Nouns"
  else cat ++ ['s']

/-- Parser state: `current` is the identifier of the in-progress record
(`concept` in the script), `store` holds every record ever constructed,
`groups` is the insertion-ordered dict mapping group names to lists of
record identifiers, `warnings` the line numbers reported as unexpected
format, `passage` the document passage label. -/
structure PState where
  current : Option Nat
  store : List UnlinkedConcept
  groups : List (List Char × List Nat)
  warnings : List Nat
  passage : List Char
deriving DecidableEq

def initState : PState := ⟨none, [], [], [], []⟩

/-- Dict update `groups[key].append(id)` with `if key not in groups: groups[key] = []`
first — appends to the existing key or adds the key at the end. -/
def appendTo (g : List (List Char × List Nat)) (k : List Char) (i : Nat) :
    List (List Char × List Nat) :=
  match g with
  | [] => [(k, [i])]
  | (k2, ids) :: rest =>
    if k2 == k then (k2, ids ++ [i]) :: rest else (k2, ids) :: appendTo rest k i

/-- Update the `sample` field of record `i` in the store. -/
def setSample (st : List UnlinkedConcept) (i : Nat) (v : List Char) : List UnlinkedConcept :=
  match st[i]? with
  | some c => st.set i { c with sample := v }
  | none => st

/-- Update the `verse` field of record `i` in the store. -/
def setVerse (st : List UnlinkedConcept) (i : Nat) (v : List Char) : List UnlinkedConcept :=
  match st[i]? with
  | some c => st.set i { c with verse := v }
  | none => st

/-- Group name of record `i` (used to choose the dict key on a `Verse:`
line; the record always exists there). -/
def groupAt (st : List UnlinkedConcept) (i : Nat) : List Char :=
  match st[i]? with
  | some c => c.group
  | none => []

/-- One iteration of the `for line_num, line in enumerate(f)` body. -/
def lineStep (st : PState) (idx : Nat) (line : List Char) : Except Unit PState :=
  if startsW (strL "Concept") line then
    match parseConceptLine line with
    | none => .ok { st with warnings := st.warnings ++ [idx] }
    | some (cat, word, gloss) =>
      .ok { st with
        current := some st.store.length,
        store := st.store ++ [⟨groupKey cat word, word, gloss.getD [], [], []⟩] }
  else if startsW (strL "Sample Sentence") line then
    match st.current with
    | none => .error ()
    | some i => .ok { st with store := setSample st.store i (trim (line.drop 17)) }
  else if startsW (strL "Verse") line then
    match st.current with
    | none => .error ()
    | some i =>
      let store2 := setVerse st.store i (trim (line.drop 7))
      .ok { st with store := store2, groups := appendTo st.groups (groupAt store2 i) i }
  else if startsW (strL "Current Passage") line then
    .ok { st with passage := trim (line.drop 17) }
  else .ok st

/-- The whole loop of `import_concepts` over the (newline-stripped) lines,
starting at line number `idx` (`enumerate` starts at 0). -/
def runLines (st : PState) (idx : Nat) : List (List Char) → Except Unit PState
  | [] => .ok st
  | l :: ls =>
    match lineStep st idx l with
    | .error e => .error e
    | .ok st2 => runLines st2 (idx + 1) ls

/-- Result of a run as an `Option`, for concrete evaluation. -/
def okOf : Except Unit PState → Option PState
  | .ok st => some st
  | .error _ => none

/-! ## Output-time rendering order -/

/-- All record identifiers across all group lists, in emission order. -/
def idsOf (g : List (List Char × List Nat)) : List Nat :=
  g.foldr (fun p acc => p.2 ++ acc) []

/-- Number of times identifier `i` occurs across all group lists. -/
def countId (i : Nat) (g : List (List Char × List Nat)) : Nat := (idsOf g).count i

/-- Dict lookup `groups[k]`. -/
def lookupGrp (g : List (List Char × List Nat)) (k : List Char) : Option (List Nat) :=
  match g with
  | [] => none
  | (k2, ids) :: rest => if k2 == k then some ids else lookupGrp rest k

/-- Dereference a list of identifiers in the store. -/
def rowsOfIds (store : List UnlinkedConcept) (ids : List Nat) : List UnlinkedConcept :=
  ids.filterMap (store[·]?)

/-- Python string `<` (lexicographic by code point). -/
def lexLt : List Char → List Char → Bool
  | [], [] => false
  | [], _ :: _ => true
  | _ :: _, [] => false
  | a :: as2, b :: bs =>
    if a.toNat < b.toNat then true
    else if b.toNat < a.toNat then false
    else lexLt as2 bs

/-- Stable insertion of a concept into a word-sorted list (inserts after
equal keys, as Python's stable `sorted` does). -/
def insertByWord (c : UnlinkedConcept) : List UnlinkedConcept → List UnlinkedConcept
  | [] => [c]
  | d :: ds => if lexLt c.word d.word then c :: d :: ds else d :: insertByWord c ds

/-- Python `sorted(concepts, key=lambda c: c.word)` (stable). -/
def sortByWord (l : List UnlinkedConcept) : List UnlinkedConcept :=
  l.foldl (fun acc c => insertByWord c acc) []

/-- Row order of the Proper Names table (`create_names_tables`, line 133):
`groups['Proper Nouns']` iterated in source order, unsorted. -/
def properRows (st : PState) : List UnlinkedConcept :=
  match lookupGrp st.groups (strL "Proper Nouns") with
  | some ids => rowsOfIds st.store ids
  | none => []

/-- Row order of a regular category table (`create_table`, line 149):
`sorted(groups[group_name], key=lambda c: c.word)`. -/
def tableRows (st : PState) (name : List Char) : List UnlinkedConcept :=
  match lookupGrp st.groups name with
  | some ids => sortByWord (rowsOfIds st.store ids)
  | none => []

/-! ## Specification-side notions used in the claim statements -/

/-- The accepted inflected forms: the base alone or with one suffix from
the fixed set. -/
def allSuffixes : List (List Char) := [[], ['s'], ['e', 's'], ['e', 'd'], ['d']]

/-- The five accepted surface forms of a base, lower-cased. -/
def wordForms (base : List Char) : List (List Char) :=
  allSuffixes.map (fun suf => lows base ++ suf)

/-- Occurrence predicate: `base` (inflected by `suf`) appears as a whole word, case-insensitively,
in `s`: the occurrence is flanked by non-word characters or the ends of the
string. -/
def occursWord (base s : List Char) : Prop :=
  ∃ a mid rest suf, suf ∈ allSuffixes ∧ s = a ++ mid ++ rest ∧
    lows mid = lows (base ++ suf) ∧
    (a = [] ∨ wordB a.getLast? = false) ∧
    (rest = [] ∨ wordB rest.head? = false)

/-- Parser mode used to describe well-formed inputs: no record in
progress, a record in progress not yet appended, or a record already
appended by a `Verse:` line. -/
inductive PMode where
  | noCur
  | opened
  | closedM
deriving DecidableEq

/-- Mode transition of one input line. -/
def stepMode (m : PMode) (l : List Char) : PMode :=
  if startsW (strL "Concept") l then
    if (parseConceptLine l).isSome then .opened else m
  else if startsW (strL "Sample Sentence") l then .opened
  else if startsW (strL "Verse") l then .closedM
  else m

/-- Well-formed input: every `Sample Sentence:` and `Verse:` line arrives
while a record is open and not yet appended — i.e. each concept block has
its sample lines before at most one verse line. -/
def wfLines (m : PMode) : List (List Char) → Bool
  | [] => true
  | l :: ls =>
    (if startsW (strL "Concept") l then true
     else if startsW (strL "Sample Sentence") l then m == .opened
     else if startsW (strL "Verse") l then m == .opened
     else true) && wfLines (stepMode m l) ls

/-- Mode after consuming a list of lines. -/
def modeAfter (m : PMode) : List (List Char) → PMode
  | [] => m
  | l :: ls => modeAfter (stepMode m l) ls

/-- Relation between the well-formedness mode and the parser state: with a
record open and not yet appended, the current identifier is fresh (occurs
in no group) and points into the store. -/
def modeInv (m : PMode) (st : PState) : Prop :=
  match m with
  | .noCur => st.current = none
  | .opened => ∃ i, st.current = some i ∧ i < st.store.length ∧ countId i st.groups = 0
  | .closedM => st.current.isSome = true

/-- Global parser-state invariant: group members are unique across all
group lists and point into the store. -/
def stInv (st : PState) : Prop :=
  (∀ i, countId i st.groups ≤ 1) ∧ (∀ i ∈ idsOf st.groups, i < st.store.length)

/-- Line numbers of the malformed `Concept` header lines in `lines`,
starting the numbering at `idx`. -/
def warnsOf (idx : Nat) : List (List Char) → List Nat
  | [] => []
  | l :: ls =>
    (if startsW (strL "Concept") l && (parseConceptLine l).isNone then [idx] else [])
      ++ warnsOf (idx + 1) ls

/-- A `Concept` header line assembled from its grammatical components:
category in parentheses, lemma body, sense hyphen and tag, optional
quoted gloss. -/
def renderHeader (cat body : List Char) (u : Char) (gl : Option (List Char)) : List Char :=
  strL "Concept (" ++ cat ++ strL "): " ++ body ++ ['-', u] ++
    (match gl with
     | none => []
     | some g => [' ', ' ', '\''] ++ g ++ ['\''])

/-- The base form of a lemma-with-sense: the text preceding the final
hyphen (what lines 206-208 of the script compute). -/
def baseForm (word : List Char) : Option (List Char) :=
  (rIndexOf word '-').map (word.take ·)

/-- The character preceding the current scan position: the last character
of the consumed prefix `a`, or the initial predecessor `prev` when nothing
has been consumed yet. -/
def lastOr (prev : Option Char) (a : List Char) : Option Char :=
  match a.getLast? with
  | some c => some c
  | none => prev

/-! # Theorems -/

/-! ## Generic scanning lemmas -/

theorem takeWhile_of_all {p : Char → Bool} {xs : List Char}
    (h : ∀ c ∈ xs, p c = true) : xs.takeWhile p = xs := by
  induction xs with
  | nil => rfl
  | cons a l ih =>
    rw [List.takeWhile_cons, if_pos (h a (List.mem_cons_self a l))]
    exact congrArg _ (ih fun c hc => h c (List.mem_cons_of_mem a hc))

theorem dropWhile_of_all {p : Char → Bool} {xs : List Char}
    (h : ∀ c ∈ xs, p c = true) : xs.dropWhile p = [] := by
  induction xs with
  | nil => rfl
  | cons a l ih =>
    rw [List.dropWhile_cons, if_pos (h a (List.mem_cons_self a l))]
    exact ih fun c hc => h c (List.mem_cons_of_mem a hc)

theorem takeWhile_all_append {p : Char → Bool} {xs : List Char} (y : Char) (ys : List Char)
    (h : ∀ c ∈ xs, p c = true) (hy : p y = false) :
    (xs ++ y :: ys).takeWhile p = xs := by
  induction xs with
  | nil => rw [List.nil_append, List.takeWhile_cons, if_neg (by simp [hy])]
  | cons a l ih =>
    rw [List.cons_append, List.takeWhile_cons, if_pos (h a (List.mem_cons_self a l))]
    exact congrArg _ (ih fun c hc => h c (List.mem_cons_of_mem a hc))

theorem dropWhile_all_append {p : Char → Bool} {xs : List Char} (y : Char) (ys : List Char)
    (h : ∀ c ∈ xs, p c = true) (hy : p y = false) :
    (xs ++ y :: ys).dropWhile p = y :: ys := by
  induction xs with
  | nil => rw [List.nil_append, List.dropWhile_cons, if_neg (by simp [hy])]
  | cons a l ih =>
    rw [List.cons_append, List.dropWhile_cons, if_pos (h a (List.mem_cons_self a l))]
    exact ih fun c hc => h c (List.mem_cons_of_mem a hc)

theorem takeWhile_append_of_all {p : Char → Bool} {xs : List Char} (ys : List Char)
    (h : ∀ c ∈ xs, p c = true) :
    (xs ++ ys).takeWhile p = xs ++ ys.takeWhile p := by
  induction xs with
  | nil => rfl
  | cons a l ih =>
    rw [List.cons_append, List.takeWhile_cons, if_pos (h a (List.mem_cons_self a l))]
    exact congrArg _ (ih fun c hc => h c (List.mem_cons_of_mem a hc))

theorem dropWhile_append_of_all {p : Char → Bool} {xs : List Char} (ys : List Char)
    (h : ∀ c ∈ xs, p c = true) :
    (xs ++ ys).dropWhile p = ys.dropWhile p := by
  induction xs with
  | nil => rfl
  | cons a l ih =>
    rw [List.cons_append, List.dropWhile_cons, if_pos (h a (List.mem_cons_self a l))]
    exact ih fun c hc => h c (List.mem_cons_of_mem a hc)

theorem all_of_dropWhile_eq_nil {p : Char → Bool} {xs : List Char}
    (h : xs.dropWhile p = []) : ∀ c ∈ xs, p c = true := by
  induction xs with
  | nil => intro c hc; cases hc
  | cons a l ih =>
    rw [List.dropWhile_cons] at h
    intro c hc
    by_cases ha : p a = true
    · rcases List.mem_cons.mp hc with rfl | hc
      · exact ha
      · exact ih (by rwa [if_pos ha] at h) c hc
    · rw [if_neg ha] at h; cases h

theorem head_dropWhile_false {p : Char → Bool} {xs : List Char} {c : Char} {r : List Char}
    (h : xs.dropWhile p = c :: r) : p c = false := by
  induction xs with
  | nil => cases h
  | cons a l ih =>
    rw [List.dropWhile_cons] at h
    by_cases ha : p a = true
    · exact ih (by rwa [if_pos ha] at h)
    · rw [if_neg ha] at h
      cases h
      exact Bool.eq_false_iff.mpr ha

theorem dropWhile_append_of_ne_nil {p : Char → Bool} {xs : List Char} (ys : List Char)
    (h : xs.dropWhile p ≠ []) :
    (xs ++ ys).dropWhile p = xs.dropWhile p ++ ys := by
  induction xs with
  | nil => exact absurd rfl h
  | cons a l ih =>
    by_cases ha : p a = true
    · rw [List.dropWhile_cons, if_pos ha] at h
      rw [List.cons_append, List.dropWhile_cons, if_pos ha,
        List.dropWhile_cons, if_pos ha]
      exact ih h
    · rw [List.cons_append, List.dropWhile_cons, if_neg ha,
        List.dropWhile_cons, if_neg ha, List.cons_append]

theorem mem_of_mem_takeWhile {p : Char → Bool} {xs : List Char} {c : Char}
    (h : c ∈ xs.takeWhile p) : c ∈ xs := by
  have := List.takeWhile_append_dropWhile (p := p) (l := xs)
  rw [← this]
  exact List.mem_append_left _ h

theorem consumeSp_cons_ne {d : Char} (l : List Char) (hd : d ≠ ' ') :
    consumeSp (d :: l) = d :: l := by
  unfold consumeSp
  split
  · next heq => cases heq; exact absurd rfl hd
  · rfl

theorem consumeSp_length_le (l : List Char) : (consumeSp l).length ≤ l.length := by
  unfold consumeSp; split <;> simp

/-! ## Sentence-splitter lemmas -/

theorem splitSentsFuel_nil (n : Nat) : splitSentsFuel n [] = [] := by
  cases n <;> rfl

theorem splitSentsFuel_succ (fuel : Nat) (s : List Char) :
    splitSentsFuel (fuel + 1) s =
      match (s.dropWhile isTermCh).dropWhile notTerm with
      | [] => []
      | t :: r2 =>
        ((s.dropWhile isTermCh).takeWhile notTerm ++ t :: r2.takeWhile notWs)
          :: splitSentsFuel fuel (consumeSp (r2.dropWhile notWs)) := rfl

/-- The step of the scan consumes at least one character, so the recursive
argument is shorter than the scanned string. -/
theorem splitStep_shorter {s : List Char} {t : Char} {r2 : List Char}
    (h : (s.dropWhile isTermCh).dropWhile notTerm = t :: r2) :
    (consumeSp (r2.dropWhile notWs)).length + 1 ≤ s.length := by
  have h1 := consumeSp_length_le (r2.dropWhile notWs)
  have h2 := (List.dropWhile_sublist (l := r2) notWs).length_le
  have h3 : (t :: r2).length ≤ (s.dropWhile isTermCh).length := by
    rw [← h]
    exact (List.dropWhile_sublist (l := s.dropWhile isTermCh) notTerm).length_le
  have h4 := (List.dropWhile_sublist (l := s) isTermCh).length_le
  simp only [List.length_cons] at h3
  omega

theorem splitSentsFuel_congr :
    ∀ n m s, s.length ≤ n → s.length ≤ m → splitSentsFuel n s = splitSentsFuel m s := by
  intro n
  induction n using Nat.strong_induction_on with
  | _ n ih =>
    intro m s hn hm
    match n, m with
    | 0, m =>
      have : s = [] := List.length_eq_zero.mp (Nat.le_zero.mp hn)
      subst this
      rw [splitSentsFuel_nil, splitSentsFuel_nil]
    | Nat.succ n1, 0 =>
      have : s = [] := List.length_eq_zero.mp (Nat.le_zero.mp hm)
      subst this
      rw [splitSentsFuel_nil, splitSentsFuel_nil]
    | Nat.succ n1, Nat.succ m1 =>
      rw [splitSentsFuel_succ n1 s, splitSentsFuel_succ m1 s]
      cases hr : (s.dropWhile isTermCh).dropWhile notTerm with
      | nil => rfl
      | cons t r2 =>
        have hlen := splitStep_shorter hr
        show ((s.dropWhile isTermCh).takeWhile notTerm ++ t :: r2.takeWhile notWs)
            :: splitSentsFuel n1 (consumeSp (r2.dropWhile notWs)) =
          ((s.dropWhile isTermCh).takeWhile notTerm ++ t :: r2.takeWhile notWs)
            :: splitSentsFuel m1 (consumeSp (r2.dropWhile notWs))
        rw [ih n1 (Nat.lt_succ_self n1) m1 (consumeSp (r2.dropWhile notWs))
          (by omega) (by omega)]

theorem splitSents_eq_nil {s : List Char}
    (h : (s.dropWhile isTermCh).dropWhile notTerm = []) : splitSents s = [] := by
  cases hl : s.length with
  | zero => rw [List.length_eq_zero.mp hl]; rfl
  | succ k =>
    show splitSentsFuel s.length s = []
    rw [hl, splitSentsFuel_succ, h]

theorem splitSents_eq_cons {s : List Char} {t : Char} {r2 : List Char}
    (h : (s.dropWhile isTermCh).dropWhile notTerm = t :: r2) :
    splitSents s =
      ((s.dropWhile isTermCh).takeWhile notTerm ++ t :: r2.takeWhile notWs)
        :: splitSents (consumeSp (r2.dropWhile notWs)) := by
  have hlen := splitStep_shorter h
  cases hl : s.length with
  | zero =>
    rw [List.length_eq_zero.mp hl] at h
    simp at h
  | succ k =>
    show splitSentsFuel s.length s = _
    rw [hl, splitSentsFuel_succ, h]
    show ((s.dropWhile isTermCh).takeWhile notTerm ++ t :: r2.takeWhile notWs)
        :: splitSentsFuel k (consumeSp (r2.dropWhile notWs)) = _
    rw [splitSentsFuel_congr k (consumeSp (r2.dropWhile notWs)).length
      (consumeSp (r2.dropWhile notWs)) (by omega) (le_refl _)]
    rfl

theorem splitSents_of_no_terminal {s : List Char}
    (h : ∀ c ∈ s, isTermCh c = false) : splitSents s = [] := by
  apply splitSents_eq_nil
  have h1 : s.dropWhile isTermCh = s := by
    cases s with
    | nil => rfl
    | cons a l =>
      rw [List.dropWhile_cons, if_neg (by rw [h a (List.mem_cons_self a l)]; simp)]
  rw [h1]
  exact dropWhile_of_all fun c hc => by unfold notTerm; rw [h c hc]; rfl

/-- Every emitted sentence unit consists of a nonempty run of non-terminal
characters, one terminal character, and a run of non-whitespace characters
(the shape `[^.?!]+[.?!]\S*` of the captured group). -/
theorem mem_splitSents_shape :
    ∀ s u, u ∈ splitSents s →
      ∃ pre t sfx, u = pre ++ t :: sfx ∧ pre ≠ [] ∧
        (∀ c ∈ pre, notTerm c = true) ∧ isTermCh t = true ∧
        (∀ c ∈ sfx, notWs c = true) := by
  have main : ∀ n s u, s.length ≤ n → u ∈ splitSents s →
      ∃ pre t sfx, u = pre ++ t :: sfx ∧ pre ≠ [] ∧
        (∀ c ∈ pre, notTerm c = true) ∧ isTermCh t = true ∧
        (∀ c ∈ sfx, notWs c = true) := by
    intro n
    induction n using Nat.strong_induction_on with
    | _ n ih =>
      intro s u hn hu
      cases hr : (s.dropWhile isTermCh).dropWhile notTerm with
      | nil => rw [splitSents_eq_nil hr] at hu; cases hu
      | cons t r2 =>
        rw [splitSents_eq_cons hr] at hu
        rcases List.mem_cons.mp hu with rfl | hmem
        · refine ⟨(s.dropWhile isTermCh).takeWhile notTerm, t, r2.takeWhile notWs,
            rfl, ?_, ?_, ?_, ?_⟩
          · -- the pre-run is nonempty: the head of `dropWhile isTermCh s` is
            -- a non-terminal character
            cases hs1 : s.dropWhile isTermCh with
            | nil => rw [hs1] at hr; cases hr
            | cons a l =>
              have ha : isTermCh a = false := head_dropWhile_false hs1
              rw [List.takeWhile_cons, if_pos (by unfold notTerm; rw [ha]; rfl)]
              simp
          · exact fun c hc => List.mem_takeWhile_imp hc
          · have := head_dropWhile_false hr
            unfold notTerm at this
            simpa using this
          · exact fun c hc => List.mem_takeWhile_imp hc
        · have hlen := splitStep_shorter hr
          exact ih (consumeSp (r2.dropWhile notWs)).length (by omega)
            (consumeSp (r2.dropWhile notWs)) u le_rfl hmem
  intro s u hu
  exact main s.length s u le_rfl hu

/-- Splitting a string of the sentence-unit shape returns exactly that
string. -/
theorem splitSents_unit {pre : List Char} {t : Char} {sfx : List Char}
    (hpre : pre ≠ []) (hpreT : ∀ c ∈ pre, notTerm c = true)
    (ht : isTermCh t = true) (hsfx : ∀ c ∈ sfx, notWs c = true) :
    splitSents (pre ++ t :: sfx) = [pre ++ t :: sfx] := by
  have hdrop1 : (pre ++ t :: sfx).dropWhile isTermCh = pre ++ t :: sfx := by
    cases pre with
    | nil => exact absurd rfl hpre
    | cons a l =>
      rw [List.cons_append, List.dropWhile_cons, if_neg]
      have := hpreT a (List.mem_cons_self a l)
      unfold notTerm at this
      simp only [Bool.not_eq_true'] at this
      rw [this]
      simp
  have hdrop2 : (pre ++ t :: sfx).dropWhile notTerm = t :: sfx :=
    dropWhile_all_append t sfx hpreT (by unfold notTerm; rw [ht]; rfl)
  rw [splitSents_eq_cons (by rw [hdrop1]; exact hdrop2)]
  rw [hdrop1, takeWhile_all_append t sfx hpreT (by unfold notTerm; rw [ht]; rfl)]
  rw [takeWhile_of_all hsfx, dropWhile_of_all hsfx]
  show _ = [pre ++ t :: sfx]
  rw [show consumeSp [] = [] from rfl]
  rw [show splitSents [] = [] from rfl]

/-- C8: sentence splitting is idempotent — re-splitting any sentence unit
produced by `SENTENCE_REGEX.findall` yields exactly that one unit again. -/
theorem split_idempotent (v u : List Char) (hu : u ∈ splitSents v) :
    splitSents u = [u] := by
  obtain ⟨pre, t, sfx, rfl, hp, hpt, ht, hs⟩ := mem_splitSents_shape v u hu
  exact splitSents_unit hp hpt ht hs

/-- Witness for `split_idempotent` at a concrete verse and unit. -/
theorem split_idempotent_w :
    strL "He ran home." ∈ splitSents (strL "He ran home. She sat.") ∧
      splitSents (strL "He ran home.") = [strL "He ran home."] :=
  ⟨by decide, split_idempotent (strL "He ran home. She sat.") (strL "He ran home.")
    (by decide)⟩

/-- Text separated by a space from everything up to (and attached to) the
last sentence-terminal character contributes nothing to the split: if `r`
contains no terminal character, splitting `w ++ ' ' :: r` and splitting
`w ++ [' ']` agree. -/
theorem splitSents_trailing (r : List Char) (hr : ∀ c ∈ r, isTermCh c = false) :
    ∀ w, splitSents (w ++ ' ' :: r) = splitSents (w ++ [' ']) := by
  have hrT : ∀ c ∈ r, notTerm c = true := fun c hc => by
    unfold notTerm; rw [hr c hc]; rfl
  have main : ∀ n w, w.length ≤ n →
      splitSents (w ++ ' ' :: r) = splitSents (w ++ [' ']) := by
    intro n
    induction n using Nat.strong_induction_on with
    | _ n ih =>
      intro w hn
      cases hw1 : w.dropWhile isTermCh with
      | nil =>
        -- `w` is all terminal characters; after it comes only the space
        -- and the terminal-free tail, so neither side finds a unit
        have hall := all_of_dropWhile_eq_nil hw1
        have e1 : (w ++ ' ' :: r).dropWhile isTermCh = ' ' :: r := by
          rw [dropWhile_append_of_all (' ' :: r) hall, List.dropWhile_cons,
            if_neg (by decide)]
        have e2 : (w ++ [' ']).dropWhile isTermCh = [' '] := by
          rw [dropWhile_append_of_all [' '] hall, List.dropWhile_cons,
            if_neg (by decide)]
        rw [splitSents_eq_nil (by
              rw [e1]
              exact dropWhile_of_all (by
                intro c hc
                rcases List.mem_cons.mp hc with rfl | hc
                · rfl
                · exact hrT c hc)),
          splitSents_eq_nil (by rw [e2]; rfl)]
      | cons c w1 =>
        have hw1ne : w.dropWhile isTermCh ≠ [] := by rw [hw1]; simp
        have e1 : (w ++ ' ' :: r).dropWhile isTermCh = (c :: w1) ++ ' ' :: r := by
          rw [dropWhile_append_of_ne_nil (' ' :: r) hw1ne, hw1]
        have e2 : (w ++ [' ']).dropWhile isTermCh = (c :: w1) ++ [' '] := by
          rw [dropWhile_append_of_ne_nil [' '] hw1ne, hw1]
        cases hr1 : (c :: w1).dropWhile notTerm with
        | nil =>
          -- no terminal anywhere in `w`: no unit on either side
          have hallw := all_of_dropWhile_eq_nil hr1
          rw [splitSents_eq_nil (by
                rw [e1, dropWhile_append_of_all (' ' :: r) hallw]
                exact dropWhile_of_all (by
                  intro x hx
                  rcases List.mem_cons.mp hx with rfl | hx
                  · rfl
                  · exact hrT x hx)),
            splitSents_eq_nil (by
              rw [e2, dropWhile_append_of_all [' '] hallw]
              rfl)]
        | cons t r2 =>
          -- a terminal inside `w`: both sides emit the same first unit
          have hpreT : ∀ x ∈ (c :: w1).takeWhile notTerm, notTerm x = true :=
            fun x hx => List.mem_takeWhile_imp hx
          have htf : notTerm t = false := head_dropWhile_false hr1
          have hdec : c :: w1 = (c :: w1).takeWhile notTerm ++ t :: r2 := by
            rw [← hr1, List.takeWhile_append_dropWhile]
          have hd1 : ((c :: w1) ++ ' ' :: r).dropWhile notTerm =
              t :: (r2 ++ ' ' :: r) := by
            conv_lhs => rw [hdec]
            rw [List.append_assoc, List.cons_append]
            exact dropWhile_all_append t (r2 ++ ' ' :: r) hpreT htf
          have hd2 : ((c :: w1) ++ [' ']).dropWhile notTerm = t :: (r2 ++ [' ']) := by
            conv_lhs => rw [hdec]
            rw [List.append_assoc, List.cons_append]
            exact dropWhile_all_append t (r2 ++ [' ']) hpreT htf
          have ht1 : ((c :: w1) ++ ' ' :: r).takeWhile notTerm =
              (c :: w1).takeWhile notTerm := by
            conv_lhs => rw [hdec]
            rw [List.append_assoc, List.cons_append]
            exact takeWhile_all_append t (r2 ++ ' ' :: r) hpreT htf
          have ht2 : ((c :: w1) ++ [' ']).takeWhile notTerm =
              (c :: w1).takeWhile notTerm := by
            conv_lhs => rw [hdec]
            rw [List.append_assoc, List.cons_append]
            exact takeWhile_all_append t (r2 ++ [' ']) hpreT htf
          have H1 : ((w ++ ' ' :: r).dropWhile isTermCh).dropWhile notTerm =
              t :: (r2 ++ ' ' :: r) := by rw [e1]; exact hd1
          have H2 : ((w ++ [' ']).dropWhile isTermCh).dropWhile notTerm =
              t :: (r2 ++ [' ']) := by rw [e2]; exact hd2
          rw [splitSents_eq_cons H1, splitSents_eq_cons H2]
          rw [e1, e2, ht1, ht2]
          -- size bookkeeping: `r2` sits strictly inside `w`
          have hsz : r2.length + 1 ≤ w.length := by
            have h2 : (c :: w1).length ≤ w.length := by
              rw [← hw1]
              exact (List.dropWhile_sublist (l := w) isTermCh).length_le
            have h3 : (t :: r2).length ≤ (c :: w1).length := by
              rw [← hr1]
              exact (List.dropWhile_sublist (l := c :: w1) notTerm).length_le
            simp only [List.length_cons] at h2 h3
            omega
          cases hws : r2.dropWhile notWs with
          | nil =>
            -- `r2` is all non-whitespace: the unit absorbs `r2` and the
            -- space separates the tails, which are both terminal-free
            have hallr2 := all_of_dropWhile_eq_nil hws
            have hta : (r2 ++ ' ' :: r).takeWhile notWs = r2 := by
              rw [takeWhile_append_of_all (' ' :: r) hallr2, List.takeWhile_cons,
                if_neg (by decide)]
              simp
            have htb : (r2 ++ [' ']).takeWhile notWs = r2 := by
              rw [takeWhile_append_of_all [' '] hallr2, List.takeWhile_cons,
                if_neg (by decide)]
              simp
            have hda : (r2 ++ ' ' :: r).dropWhile notWs = ' ' :: r := by
              rw [dropWhile_append_of_all (' ' :: r) hallr2, List.dropWhile_cons,
                if_neg (by decide)]
            have hdb : (r2 ++ [' ']).dropWhile notWs = [' '] := by
              rw [dropWhile_append_of_all [' '] hallr2, List.dropWhile_cons,
                if_neg (by decide)]
            rw [hta, htb, hda, hdb,
              show consumeSp (' ' :: r) = r from rfl,
              show consumeSp [' '] = ([] : List Char) from rfl,
              splitSents_of_no_terminal hr,
              show splitSents [] = [] from rfl]
          | cons d d2 =>
            -- the unit stops at a whitespace character inside `r2`
            have hpreW : ∀ x ∈ r2.takeWhile notWs, notWs x = true :=
              fun x hx => List.mem_takeWhile_imp hx
            have hdf : notWs d = false := head_dropWhile_false hws
            have hdecW : r2 = r2.takeWhile notWs ++ d :: d2 := by
              rw [← hws, List.takeWhile_append_dropWhile]
            have hta : (r2 ++ ' ' :: r).takeWhile notWs = r2.takeWhile notWs := by
              conv_lhs => rw [hdecW]
              rw [List.append_assoc, List.cons_append]
              exact takeWhile_all_append d (d2 ++ ' ' :: r) hpreW hdf
            have htb : (r2 ++ [' ']).takeWhile notWs = r2.takeWhile notWs := by
              conv_lhs => rw [hdecW]
              rw [List.append_assoc, List.cons_append]
              exact takeWhile_all_append d (d2 ++ [' ']) hpreW hdf
            have hda : (r2 ++ ' ' :: r).dropWhile notWs = d :: (d2 ++ ' ' :: r) := by
              conv_lhs => rw [hdecW]
              rw [List.append_assoc, List.cons_append]
              exact dropWhile_all_append d (d2 ++ ' ' :: r) hpreW hdf
            have hdb : (r2 ++ [' ']).dropWhile notWs = d :: (d2 ++ [' ']) := by
              conv_lhs => rw [hdecW]
              rw [List.append_assoc, List.cons_append]
              exact dropWhile_all_append d (d2 ++ [' ']) hpreW hdf
            rw [hta, htb, hda, hdb]
            have hd2sz : (d :: d2).length ≤ r2.length := by
              rw [← hws]
              exact (List.dropWhile_sublist (l := r2) notWs).length_le
            simp only [List.length_cons] at hd2sz
            by_cases hdsp : d = ' '
            · subst hdsp
              rw [show consumeSp (' ' :: (d2 ++ ' ' :: r)) = d2 ++ ' ' :: r from rfl,
                show consumeSp (' ' :: (d2 ++ [' '])) = d2 ++ [' '] from rfl,
                ih d2.length (by omega) d2 le_rfl]
            · rw [consumeSp_cons_ne (d2 ++ ' ' :: r) hdsp,
                consumeSp_cons_ne (d2 ++ [' ']) hdsp]
              have := ih (d :: d2).length (by simp only [List.length_cons]; omega)
                (d :: d2) le_rfl
              rw [show (d :: (d2 ++ ' ' :: r)) = (d :: d2) ++ ' ' :: r from rfl,
                show (d :: (d2 ++ [' '])) = (d :: d2) ++ [' '] from rfl, this]
  intro w
  exact main w.length w le_rfl

/-! ## Character-class lemmas -/

theorem isWordCh_lowCh (c : Char) : isWordCh (lowCh c) = isWordCh c := by
  unfold lowCh
  split <;> rfl

theorem isWord_eq_of_lowCh_eq {a b : Char} (h : lowCh a = lowCh b) :
    isWordCh a = isWordCh b := by
  rw [← isWordCh_lowCh a, ← isWordCh_lowCh b, h]

theorem suffix_lows : ∀ suf ∈ allSuffixes, lows suf = suf := by decide

theorem suffix_word : ∀ suf ∈ allSuffixes, ∀ c ∈ suf, isWordCh c = true := by decide

theorem mem_suffList_iff (suf : List Char) : suf ∈ suffList ↔ suf ∈ allSuffixes := by
  constructor <;> intro h <;> fin_cases h <;> decide

/-! ## Word-search lemmas -/

theorem lastOr_nil (prev : Option Char) : lastOr prev [] = prev := rfl

theorem lastOr_cons (prev : Option Char) (c : Char) (a : List Char) :
    lastOr prev (c :: a) = lastOr (some c) a := by
  cases a with
  | nil => rfl
  | cons d l =>
    unfold lastOr
    rw [List.getLast?_cons_cons]
    cases hg : (d :: l).getLast? with
    | some x => rfl
    | none =>
      have h2 := List.getLast?_isSome.mpr (by simp : (d :: l) ≠ [])
      rw [hg] at h2
      cases h2

theorem lastOr_of_ne_nil (prev : Option Char) {a : List Char} (h : a ≠ []) :
    lastOr prev a = a.getLast? := by
  unfold lastOr
  cases hg : a.getLast? with
  | some c => rfl
  | none =>
    have := List.getLast?_isSome.mpr h
    rw [hg] at this
    cases this

theorem getLast?_mem2 {l : List Char} {a : Char} (h : l.getLast? = some a) : a ∈ l := by
  rw [List.getLast?_eq_getElem? l] at h
  exact List.getElem?_mem h

theorem searchAux_of_some {base : List Char} {prev : Option Char} {s : List Char}
    {len : Nat} (i : Nat) (hm : matchLenAt base prev s = some len) :
    searchAux base prev s i = some (i, i + len) := by
  cases s with
  | nil => unfold searchAux; rw [hm]; rfl
  | cons c r => unfold searchAux; rw [hm]

theorem searchAux_nil_of_none {base : List Char} {prev : Option Char} (i : Nat)
    (hm : matchLenAt base prev [] = none) :
    searchAux base prev [] i = none := by
  unfold searchAux
  rw [hm]
  rfl

theorem searchAux_cons_of_none {base : List Char} {prev : Option Char} {c : Char}
    {r : List Char} (i : Nat) (hm : matchLenAt base prev (c :: r) = none) :
    searchAux base prev (c :: r) i = searchAux base (some c) r (i + 1) := by
  conv_lhs => unfold searchAux
  rw [hm]

theorem matchLenAt_some {base : List Char} {prev : Option Char} {s : List Char} {len : Nat}
    (h : matchLenAt base prev s = some len) :
    bdry prev s.head? = true ∧
      ∃ suf, suf ∈ suffList ∧ len = base.length + suf.length ∧
        tryOne base prev s suf = true := by
  unfold matchLenAt at h
  split at h
  · next hb =>
    refine ⟨hb, ?_⟩
    rcases Option.map_eq_some'.mp h with ⟨suf, hfind, hlen⟩
    exact ⟨suf, List.mem_of_find?_eq_some hfind, hlen.symm, List.find?_some hfind⟩
  · cases h

theorem matchLenAt_isSome {base : List Char} {prev : Option Char} {s : List Char}
    (hb : bdry prev s.head? = true) {suf : List Char} (hmem : suf ∈ suffList)
    (h1 : tryOne base prev s suf = true) : (matchLenAt base prev s).isSome := by
  unfold matchLenAt
  rw [if_pos hb, Option.isSome_map', List.find?_isSome]
  exact ⟨suf, hmem, h1⟩

theorem searchAux_some {base : List Char} :
    ∀ s prev i st en, searchAux base prev s i = some (st, en) →
      ∃ a s2, s = a ++ s2 ∧ st = i + a.length ∧
        matchLenAt base (lastOr prev a) s2 = some (en - st) := by
  intro s
  induction s with
  | nil =>
    intro prev i st en h
    cases hm : matchLenAt base prev [] with
    | some len =>
      rw [searchAux_of_some i hm] at h
      simp only [Option.some.injEq, Prod.mk.injEq] at h
      obtain ⟨h1, h2⟩ := h
      refine ⟨[], [], rfl, by simpa using h1.symm, ?_⟩
      rw [lastOr_nil, hm]
      congr 1
      omega
    | none =>
      rw [searchAux_nil_of_none i hm] at h
      cases h
  | cons c r ih =>
    intro prev i st en h
    cases hm : matchLenAt base prev (c :: r) with
    | some len =>
      rw [searchAux_of_some i hm] at h
      simp only [Option.some.injEq, Prod.mk.injEq] at h
      obtain ⟨h1, h2⟩ := h
      refine ⟨[], c :: r, rfl, by simpa using h1.symm, ?_⟩
      rw [lastOr_nil, hm]
      congr 1
      omega
    | none =>
      rw [searchAux_cons_of_none i hm] at h
      obtain ⟨a2, s2, hsplit, hst, hmm⟩ := ih (some c) (i + 1) st en h
      refine ⟨c :: a2, s2, by rw [List.cons_append, hsplit], ?_, ?_⟩
      · rw [hst]; simp only [List.length_cons]; omega
      · rwa [lastOr_cons]

theorem searchAux_isSome {base : List Char} :
    ∀ a prev s2 i, (matchLenAt base (lastOr prev a) s2).isSome = true →
      (searchAux base prev (a ++ s2) i).isSome = true := by
  intro a
  induction a with
  | nil =>
    intro prev s2 i h
    rw [lastOr_nil] at h
    obtain ⟨len, hm⟩ := Option.isSome_iff_exists.mp h
    rw [List.nil_append, searchAux_of_some i hm]
    rfl
  | cons c a2 ih =>
    intro prev s2 i h
    rw [List.cons_append]
    cases hm : matchLenAt base prev (c :: (a2 ++ s2)) with
    | some len => rw [searchAux_of_some i hm]; rfl
    | none =>
      rw [searchAux_cons_of_none i hm]
      rw [lastOr_cons] at h
      exact ih (some c) s2 (i + 1) h

/-! ## Occurrence vs. search: the two bridges -/

theorem lows_length_eq {x y : List Char} (h : lows x = lows y) : x.length = y.length := by
  have h2 := congrArg List.length h
  simpa [lows] using h2

theorem low_head_word {mid base suf : List Char}
    (hb1 : base ≠ []) (hbW : ∀ c ∈ base, isWordCh c = true)
    (hlow : lows mid = lows (base ++ suf)) :
    ∃ m0 ms, mid = m0 :: ms ∧ isWordCh m0 = true := by
  obtain ⟨b0, bs, rfl⟩ : ∃ b0 bs, base = b0 :: bs := by
    cases base with
    | nil => exact absurd rfl hb1
    | cons b0 bs => exact ⟨b0, bs, rfl⟩
  cases mid with
  | nil =>
    have h2 := congrArg List.length hlow
    simp [lows] at h2
  | cons m0 ms =>
    refine ⟨m0, ms, rfl, ?_⟩
    have h2 := congrArg List.head? hlow
    simp only [lows, List.map_cons, List.cons_append, List.head?_cons] at h2
    rw [isWord_eq_of_lowCh_eq (Option.some.inj h2)]
    exact hbW b0 (List.mem_cons_self b0 bs)

theorem appendSuffix_getLast_word {base suf : List Char} (hb1 : base ≠ [])
    (hbW : ∀ c ∈ base, isWordCh c = true) (hsuf : suf ∈ allSuffixes) :
    ∃ g, (base ++ suf).getLast? = some g ∧ isWordCh g = true := by
  have h5 : suf = [] ∨ suf = ['s'] ∨ suf = ['e', 's'] ∨ suf = ['e', 'd'] ∨ suf = ['d'] := by
    simpa [allSuffixes] using hsuf
  rcases h5 with rfl | rfl | rfl | rfl | rfl
  · rw [List.append_nil]
    obtain ⟨g, hg⟩ := Option.isSome_iff_exists.mp (List.getLast?_isSome.mpr hb1)
    exact ⟨g, hg, hbW g (getLast?_mem2 hg)⟩
  · exact ⟨'s', by rw [List.getLast?_append_of_ne_nil base
      (show (['s'] : List Char) ≠ [] by simp)]; rfl, by decide⟩
  · exact ⟨'s', by rw [List.getLast?_append_of_ne_nil base
      (show (['e', 's'] : List Char) ≠ [] by simp)]; rfl, by decide⟩
  · exact ⟨'d', by rw [List.getLast?_append_of_ne_nil base
      (show (['e', 'd'] : List Char) ≠ [] by simp)]; rfl, by decide⟩
  · exact ⟨'d', by rw [List.getLast?_append_of_ne_nil base
      (show (['d'] : List Char) ≠ [] by simp)]; rfl, by decide⟩

theorem low_getLast_word {mid base suf : List Char}
    (hb1 : base ≠ []) (hbW : ∀ c ∈ base, isWordCh c = true) (hsuf : suf ∈ allSuffixes)
    (hlow : lows mid = lows (base ++ suf)) :
    ∃ g2, mid.getLast? = some g2 ∧ isWordCh g2 = true := by
  obtain ⟨g, hg, hgW⟩ := appendSuffix_getLast_word hb1 hbW hsuf
  have h2 := congrArg List.getLast? hlow
  rw [show lows mid = mid.map lowCh from rfl,
    show lows (base ++ suf) = (base ++ suf).map lowCh from rfl,
    List.getLast?_map, List.getLast?_map, hg] at h2
  obtain ⟨g2, hg2, hlow2⟩ := Option.map_eq_some'.mp h2
  exact ⟨g2, hg2, by rw [isWord_eq_of_lowCh_eq hlow2]; exact hgW⟩

/-- Completeness of the embedded `re.search`: a whole-word occurrence of an
accepted inflected form in `u` guarantees a hit (for a nonempty base made
of word characters). -/
theorem wordSearch_isSome_of_occurs {base u : List Char}
    (hb1 : base ≠ []) (hbW : ∀ c ∈ base, isWordCh c = true)
    (hocc : occursWord base u) : (wordSearch base u).isSome = true := by
  obtain ⟨a, mid, rest, suf, hsuf, hu, hlow, hend, hstart⟩ := hocc
  have hlen : mid.length = base.length + suf.length := by
    have h2 := lows_length_eq hlow
    simpa using h2
  obtain ⟨m0, ms, hmid, hm0W⟩ := low_head_word hb1 hbW hlow
  rw [List.append_assoc] at hu
  subst hu
  apply searchAux_isSome
  -- the match attempt at the occurrence position succeeds
  have hprevF : wordB (lastOr none a) = false := by
    cases a with
    | nil => rfl
    | cons a0 a1 =>
      rw [lastOr_of_ne_nil none (by simp)]
      rcases hend with h | h
      · cases h
      · exact h
  have hheads : (mid ++ rest).head? = some m0 := by rw [hmid]; rfl
  have hb : bdry (lastOr none a) ((mid ++ rest).head?) = true := by
    rw [hheads]
    show (wordB (lastOr none a) != wordB (some m0)) = true
    rw [hprevF, show wordB (some m0) = isWordCh m0 from rfl, hm0W]
    rfl
  apply matchLenAt_isSome hb ((mem_suffList_iff suf).mpr hsuf)
  -- tryOne for the occurring suffix holds
  unfold tryOne
  apply Bool.and_eq_true_iff.mpr
  constructor
  · -- the case-folded pattern is a prefix
    unfold startsLow
    apply beq_iff_eq.mpr
    rw [List.length_append, ← hlen, List.take_left]
    exact hlow.symm
  · -- the trailing boundary holds
    have hpos : base.length + suf.length ≠ 0 := by
      cases base with
      | nil => exact absurd rfl hb1
      | cons x xs => simp
    obtain ⟨g2, hg2, hg2W⟩ := low_getLast_word hb1 hbW hsuf hlow
    have hpred : charAtPred (lastOr none a) (mid ++ rest) (base.length + suf.length) =
        some g2 := by
      unfold charAtPred
      rw [if_neg hpos, ← hlen,
        List.getElem?_append_left (by
          have : 0 < mid.length := by rw [hmid]; simp
          omega),
        ← List.getLast?_eq_getElem? mid, hg2]
    have hafter : (mid ++ rest)[base.length + suf.length]? = rest.head? := by
      rw [← hlen, List.getElem?_append_right (le_refl mid.length), Nat.sub_self]
      cases rest <;> simp
    have hrestF : wordB rest.head? = false := by
      rcases hstart with h | h
      · rw [h]; rfl
      · exact h
    rw [hpred, hafter]
    show (wordB (some g2) != wordB rest.head?) = true
    rw [hrestF, show wordB (some g2) = isWordCh g2 from rfl, hg2W]
    rfl

/-- Soundness of the embedded `re.search`: a hit yields a whole-word
occurrence, and the lower-cased slice at the reported span is the base or
the base with one accepted suffix. -/
theorem wordSearch_some_spec {base u : List Char} {st en : Nat}
    (hb1 : base ≠ []) (hbW : ∀ c ∈ base, isWordCh c = true)
    (h : wordSearch base u = some (st, en)) :
    occursWord base u ∧ lows ((u.drop st).take (en - st)) ∈ wordForms base := by
  obtain ⟨a, s2, hu, hst, hm⟩ := searchAux_some u none 0 st en h
  obtain ⟨hb, suf, hmemS, hlen, h1⟩ := matchLenAt_some hm
  obtain ⟨hsl, hbd⟩ := Bool.and_eq_true_iff.mp (by
    unfold tryOne at h1
    exact h1)
  have hsufA : suf ∈ allSuffixes := (mem_suffList_iff suf).mp hmemS
  have hslE : lows (base ++ suf) = lows (s2.take (base.length + suf.length)) := by
    have h2 := beq_iff_eq.mp hsl
    rwa [List.length_append] at h2
  have hmidlen : (s2.take (base.length + suf.length)).length = base.length + suf.length := by
    have h2 := lows_length_eq hslE
    simpa using h2.symm
  have hlow : lows (s2.take (base.length + suf.length)) = lows (base ++ suf) := hslE.symm
  obtain ⟨m0, ms, hmid, hm0W⟩ := low_head_word hb1 hbW hlow
  have hs2split : s2 = s2.take (base.length + suf.length) ++ s2.drop (base.length + suf.length) :=
    (List.take_append_drop _ s2).symm
  have hstA : st = a.length := by omega
  constructor
  · refine ⟨a, s2.take (base.length + suf.length), s2.drop (base.length + suf.length), suf,
      hsufA, ?_, hlow, ?_, ?_⟩
    · rw [hu, List.append_assoc, ← hs2split]
    · -- the character before the match is not a word character
      have hheads : s2.head? = some m0 := by
        rw [hs2split, hmid]
        rfl
      have hm0T : wordB (some m0) = true := hm0W
      have hprevF : wordB (lastOr none a) = false := by
        have h2 : (wordB (lastOr none a) != wordB s2.head?) = true := hb
        rw [hheads, hm0T] at h2
        cases hwp : wordB (lastOr none a) with
        | false => rfl
        | true => rw [hwp] at h2; cases h2
      cases a with
      | nil => exact Or.inl rfl
      | cons a0 a1 =>
        refine Or.inr ?_
        rwa [lastOr_of_ne_nil none (by simp)] at hprevF
    · -- the character after the match is not a word character
      obtain ⟨g2, hg2, hg2W⟩ :=
        low_getLast_word hb1 hbW hsufA hlow
      have hpos : base.length + suf.length ≠ 0 := by
        cases base with
        | nil => exact absurd rfl hb1
        | cons x xs => simp
      have hpred : charAtPred (lastOr none a) s2 (base.length + suf.length) = some g2 := by
        unfold charAtPred
        rw [if_neg hpos]
        conv_lhs => rw [hs2split]
        rw [List.getElem?_append_left (by
            have : 0 < (s2.take (base.length + suf.length)).length := by rw [hmid]; simp
            omega)]
        have hgl : (s2.take (base.length + suf.length))[(s2.take
            (base.length + suf.length)).length - 1]? = some g2 := by
          rw [← List.getLast?_eq_getElem?]
          exact hg2
        rw [hmidlen] at hgl
        exact hgl
      have hafter : s2[base.length + suf.length]? = (s2.drop (base.length + suf.length)).head? := by
        conv_lhs => rw [hs2split]
        rw [List.getElem?_append_right (by rw [hmidlen])]
        rw [hmidlen, Nat.sub_self]
        cases s2.drop (base.length + suf.length) <;> simp
      have h2 : (wordB (some g2) != wordB ((s2.drop (base.length + suf.length)).head?)) = true := by
        rw [← hpred, ← hafter]
        exact hbd
      rw [show wordB (some g2) = isWordCh g2 from rfl, hg2W] at h2
      refine Or.inr ?_
      cases hwr : wordB ((s2.drop (base.length + suf.length)).head?) with
      | false => rfl
      | true => rw [hwr] at h2; cases h2
  · -- the lower-cased slice is one of the five accepted forms
    have hdrop : u.drop st = s2 := by
      rw [hu, hstA, List.drop_left]
    have htake : (u.drop st).take (en - st) = s2.take (base.length + suf.length) := by
      rw [hdrop, hlen]
    rw [htake, hlow]
    unfold wordForms
    apply List.mem_map.mpr
    refine ⟨suf, hsufA, ?_⟩
    rw [show lows (base ++ suf) = lows base ++ lows suf from by simp [lows]]
    rw [suffix_lows suf hsufA]

/-! ## Locator-level lemmas -/

theorem locateText_matched_mem {base vt fv u : List Char} {st en : Nat}
    (hu : u ∈ splitSents vt) (hs : wordSearch base u = some (st, en)) :
    MatchResult.matched u st en ∈ locateText base vt fv := by
  have hmem : MatchResult.matched u st en ∈ locateHits base vt :=
    List.mem_filterMap.mpr ⟨u, hu, by rw [hs]; rfl⟩
  have hne : locateHits base vt ≠ [] := List.ne_nil_of_mem hmem
  unfold locateText
  rw [if_neg (by simpa [List.isEmpty_iff] using hne)]
  exact hmem

theorem locateText_unmatched_eq {base vt fv : List Char}
    (hall : ∀ u ∈ splitSents vt, wordSearch base u = none) :
    locateText base vt fv = [MatchResult.unmatched fv] := by
  have hnil : locateHits base vt = [] := by
    unfold locateHits
    exact List.filterMap_eq_nil_iff.mpr (fun u hu => by rw [hall u hu]; rfl)
  unfold locateText
  rw [hnil]
  rfl

theorem locate_eq {word verse : List Char} {di ci vs : Nat}
    (hdi : rIndexOf word '-' = some di) (hci : idxFrom verse 0 ':' = some ci)
    (hvs : idxFrom verse ci ' ' = some vs) :
    locate word verse =
      some (locateText (word.take di) (verse.drop (vs + 1)) verse) := by
  unfold locate
  simp only [hdi, hci, hvs]

/-! ## The locator claims -/

/-- C1: if the base form (the lemma text before the final hyphen), with or
without one of the suffixes `s`, `es`, `ed`, `d`, appears as a whole word
(case-insensitively) in some sentence unit of the verse text, the locator
produces at least one `matched` result referencing that sentence, and the
substring at the recorded span, lower-cased, equals the base form or the
base form followed by exactly one accepted suffix, lower-cased.  (The base
form is assumed to be a nonempty word — made of `\w` characters — which is
what "appears as a whole word" presupposes.) -/
theorem locate_matches_whole_word (word verse : List Char) (di ci vs : Nat)
    (u : List Char)
    (hdi : rIndexOf word '-' = some di)
    (hci : idxFrom verse 0 ':' = some ci)
    (hvs : idxFrom verse ci ' ' = some vs)
    (hb1 : word.take di ≠ [])
    (hbW : ∀ c ∈ word.take di, isWordCh c = true)
    (hu : u ∈ splitSents (verse.drop (vs + 1)))
    (hocc : occursWord (word.take di) u) :
    ∃ res st en, locate word verse = some res ∧
      MatchResult.matched u st en ∈ res ∧
      lows ((u.drop st).take (en - st)) ∈ wordForms (word.take di) := by
  obtain ⟨p, hp⟩ :=
    Option.isSome_iff_exists.mp (wordSearch_isSome_of_occurs hb1 hbW hocc)
  obtain ⟨st, en⟩ := p
  exact ⟨locateText (word.take di) (verse.drop (vs + 1)) verse, st, en,
    locate_eq hdi hci hvs, locateText_matched_mem hu hp,
    (wordSearch_some_spec hb1 hbW hp).2⟩

/-- Witness for `locate_matches_whole_word`: concept `walk-A`, verse
`Gen 1:1 He walked to the market. She ran home.` — the first sentence
matches via the `ed` suffix. -/
theorem locate_matches_whole_word_w :
    ∃ res st en,
      locate (strL "walk-A") (strL "Gen 1:1 He walked to the market. She ran home.") =
        some res ∧
      MatchResult.matched (strL "He walked to the market.") st en ∈ res ∧
      lows (((strL "He walked to the market.").drop st).take (en - st)) ∈
        wordForms ((strL "walk-A").take 4) :=
  locate_matches_whole_word (strL "walk-A")
    (strL "Gen 1:1 He walked to the market. She ran home.") 4 5 7
    (strL "He walked to the market.")
    (by decide) (by decide) (by decide) (by decide) (by decide) (by decide)
    ⟨strL "He ", strL "walked", strL " to the market.", ['e', 'd'],
      by decide, by decide, by decide, Or.inr (by decide), Or.inr (by decide)⟩

/-- C2: if the base form appears in no sentence unit of the verse in any
accepted inflected form (as a whole word), the locator produces exactly one
`unmatched` result whose text is the full verse field unmodified — the
variant the renderer highlights for manual review instead of presenting an
excerpt. -/
theorem locate_unmatched_full_verse (word verse : List Char) (di ci vs : Nat)
    (hdi : rIndexOf word '-' = some di)
    (hci : idxFrom verse 0 ':' = some ci)
    (hvs : idxFrom verse ci ' ' = some vs)
    (hb1 : word.take di ≠ [])
    (hbW : ∀ c ∈ word.take di, isWordCh c = true)
    (hnone : ∀ u ∈ splitSents (verse.drop (vs + 1)), ¬ occursWord (word.take di) u) :
    locate word verse = some [MatchResult.unmatched verse] := by
  rw [locate_eq hdi hci hvs]
  rw [locateText_unmatched_eq (fun u hu => ?_)]
  cases hs : wordSearch (word.take di) u with
  | none => rfl
  | some p =>
    obtain ⟨st, en⟩ := p
    exact absurd (wordSearch_some_spec hb1 hbW hs).1 (hnone u hu)

/-- Witness for `locate_unmatched_full_verse`: concept `dog-B`, verse
`Gen 1:1 The animal barked loudly.` — no inflected form of `dog` occurs. -/
theorem locate_unmatched_full_verse_w :
    locate (strL "dog-B") (strL "Gen 1:1 The animal barked loudly.") =
      some [MatchResult.unmatched (strL "Gen 1:1 The animal barked loudly.")] :=
  locate_unmatched_full_verse (strL "dog-B")
    (strL "Gen 1:1 The animal barked loudly.") 3 5 7
    (by decide) (by decide) (by decide) (by decide) (by decide)
    (fun u hu hocc => by
      have hsome := wordSearch_isSome_of_occurs (by decide) (by decide) hocc
      have hunits : splitSents ((strL "Gen 1:1 The animal barked loudly.").drop 8) =
          [strL "The animal barked loudly."] := by decide
      rw [hunits] at hu
      rcases List.mem_singleton.mp hu with rfl
      exact absurd hsome (by decide))

/-- C10 counterexample: in verse text `Hi.there` the fragment `there` sits
after the last sentence-terminal character, yet the unit `Hi.there`
(terminal plus attached `\S*` run) contains and matches it, so the
concept is NOT given the unmatched fallback. -/
theorem trailing_fragment_cex :
    locateText (strL "there") (strL "Hi.there") (strL "Hi.there") =
      [MatchResult.matched (strL "Hi.there") 3 8] ∧
    locateText (strL "there") (strL "Hi.there") (strL "Hi.there") ≠
      [MatchResult.unmatched (strL "Hi.there")] := by
  constructor
  · decide
  · decide

/-- C10 (amended): text after the last sentence-terminal character is never
searched only when it is separated from the terminal's attached
non-whitespace run by a space — in particular a verse text with no terminal
character yields no sentence units at all and falls back to the single
highlighted full-verse entry, and a word occurring only in such a
space-separated trailing fragment yields the unmatched fallback.  (Text
attached to the terminal without whitespace is part of the unit and is
searched, per the counterexample.) -/
theorem trailing_fragment_unsearched :
    (∀ b vt fv : List Char, (∀ c ∈ vt, isTermCh c = false) →
        splitSents vt = [] ∧ locateText b vt fv = [MatchResult.unmatched fv]) ∧
    (∀ w r : List Char, (∀ c ∈ r, isTermCh c = false) →
        splitSents (w ++ ' ' :: r) = splitSents (w ++ [' '])) ∧
    (∀ b w r fv : List Char, (∀ c ∈ r, isTermCh c = false) →
        (∀ u ∈ splitSents (w ++ [' ']), wordSearch b u = none) →
        locateText b (w ++ ' ' :: r) fv = [MatchResult.unmatched fv]) := by
  refine ⟨fun b vt fv hvt => ⟨splitSents_of_no_terminal hvt, ?_⟩,
    fun w r hre => splitSents_trailing r hre w,
    fun b w r fv hre hall => ?_⟩
  · apply locateText_unmatched_eq
    rw [splitSents_of_no_terminal hvt]
    intro u hu
    cases hu
  · apply locateText_unmatched_eq
    rw [splitSents_trailing r hre w]
    exact hall

/-- Witness for `trailing_fragment_unsearched`: word `there` occurring only
in the space-separated trailing fragment of `Hi. there` gets the unmatched
fallback. -/
theorem trailing_fragment_unsearched_w :
    locateText (strL "there") (strL "Hi. there") (strL "X") =
      [MatchResult.unmatched (strL "X")] :=
  trailing_fragment_unsearched.2.2 (strL "there") (strL "Hi.") (strL "there")
    (strL "X") (by decide)
    (fun u hu => by
      have hunits : splitSents (strL "Hi." ++ [' ']) = [strL "Hi."] := by decide
      rw [hunits] at hu
      rcases List.mem_singleton.mp hu with rfl
      decide)

/-! ## Parser step lemmas -/

theorem startsW_head {p s : List Char} {c : Char} (hp : p.head? = some c)
    (h : startsW p s = true) : s.head? = some c := by
  unfold startsW at h
  have h2 := beq_iff_eq.mp h
  cases p with
  | nil => cases hp
  | cons p0 pt =>
    cases s with
    | nil => cases h2
    | cons s0 st2 =>
      simp only [List.length_cons, List.take_succ_cons, List.cons.injEq] at h2
      rw [List.head?_cons, h2.1]
      exact hp

theorem startsW_excl {p q s : List Char} {c d : Char} (hp : p.head? = some c)
    (hq : q.head? = some d) (hne : c ≠ d) (h : startsW p s = true) :
    startsW q s = false := by
  cases hs : startsW q s with
  | false => rfl
  | true =>
    have h1 := startsW_head hp h
    have h2 := startsW_head hq hs
    rw [h1] at h2
    exact absurd (Option.some.inj h2) hne

theorem runLines_cons_ok {st st2 : PState} {idx : Nat} {l : List Char}
    {ls : List (List Char)} (h : lineStep st idx l = .ok st2) :
    runLines st idx (l :: ls) = runLines st2 (idx + 1) ls := by
  conv_lhs => unfold runLines
  rw [h]

theorem runLines_cons_error {st : PState} {idx : Nat} {l : List Char}
    {ls : List (List Char)} {e : Unit} (h : lineStep st idx l = .error e) :
    runLines st idx (l :: ls) = .error e := by
  conv_lhs => unfold runLines
  rw [h]

theorem runLines_append_ok {a : List (List Char)} :
    ∀ {st st2 : PState} {idx : Nat} (b : List (List Char)),
      runLines st idx a = .ok st2 →
      runLines st idx (a ++ b) = runLines st2 (idx + a.length) b := by
  induction a with
  | nil =>
    intro st st2 idx b h
    cases (by exact h : Except.ok st = Except.ok st2)
    rfl
  | cons l ls ih =>
    intro st st2 idx b h
    cases hs : lineStep st idx l with
    | error e => rw [runLines_cons_error hs] at h; cases h
    | ok st3 =>
      rw [runLines_cons_ok hs] at h
      rw [List.cons_append, runLines_cons_ok hs, ih b h]
      simp only [List.length_cons]
      rw [show idx + (ls.length + 1) = idx + 1 + ls.length by omega]

theorem lineStep_concept_ok {st : PState} {idx : Nat} {line cat word : List Char}
    {gloss : Option (List Char)}
    (h1 : startsW (strL "Concept") line = true)
    (h2 : parseConceptLine line = some (cat, word, gloss)) :
    lineStep st idx line = .ok { st with
      current := some st.store.length,
      store := st.store ++ [⟨groupKey cat word, word, gloss.getD [], [], []⟩] } := by
  unfold lineStep
  simp only [h1, if_true, h2]

theorem lineStep_concept_bad {st : PState} {idx : Nat} {line : List Char}
    (h1 : startsW (strL "Concept") line = true)
    (h2 : parseConceptLine line = none) :
    lineStep st idx line = .ok { st with warnings := st.warnings ++ [idx] } := by
  unfold lineStep
  simp only [h1, if_true, h2]

theorem lineStep_sample_none {st : PState} {idx : Nat} {line : List Char}
    (h1 : startsW (strL "Concept") line = false)
    (h2 : startsW (strL "Sample Sentence") line = true)
    (hc : st.current = none) :
    lineStep st idx line = .error () := by
  unfold lineStep
  simp only [h1, h2, if_true, if_false, Bool.false_eq_true, hc]

theorem lineStep_sample_some {st : PState} {idx : Nat} {line : List Char} {i : Nat}
    (h1 : startsW (strL "Concept") line = false)
    (h2 : startsW (strL "Sample Sentence") line = true)
    (hc : st.current = some i) :
    lineStep st idx line =
      .ok { st with store := setSample st.store i (trim (line.drop 17)) } := by
  unfold lineStep
  simp only [h1, h2, if_true, if_false, Bool.false_eq_true, hc]

theorem lineStep_verse_none {st : PState} {idx : Nat} {line : List Char}
    (h1 : startsW (strL "Concept") line = false)
    (h2 : startsW (strL "Sample Sentence") line = false)
    (h3 : startsW (strL "Verse") line = true)
    (hc : st.current = none) :
    lineStep st idx line = .error () := by
  unfold lineStep
  simp only [h1, h2, h3, if_true, if_false, Bool.false_eq_true, hc]

theorem lineStep_verse_some {st : PState} {idx : Nat} {line : List Char} {i : Nat}
    (h1 : startsW (strL "Concept") line = false)
    (h2 : startsW (strL "Sample Sentence") line = false)
    (h3 : startsW (strL "Verse") line = true)
    (hc : st.current = some i) :
    lineStep st idx line = .ok { st with
      store := setVerse st.store i (trim (line.drop 7)),
      groups := appendTo st.groups
        (groupAt (setVerse st.store i (trim (line.drop 7))) i) i } := by
  unfold lineStep
  simp only [h1, h2, h3, if_true, if_false, Bool.false_eq_true, hc]

theorem lineStep_passage {st : PState} {idx : Nat} {line : List Char}
    (h1 : startsW (strL "Concept") line = false)
    (h2 : startsW (strL "Sample Sentence") line = false)
    (h3 : startsW (strL "Verse") line = false)
    (h4 : startsW (strL "Current Passage") line = true) :
    lineStep st idx line = .ok { st with passage := trim (line.drop 17) } := by
  unfold lineStep
  simp only [h1, h2, h3, h4, if_true, if_false, Bool.false_eq_true]

theorem lineStep_other {st : PState} {idx : Nat} {line : List Char}
    (h1 : startsW (strL "Concept") line = false)
    (h2 : startsW (strL "Sample Sentence") line = false)
    (h3 : startsW (strL "Verse") line = false)
    (h4 : startsW (strL "Current Passage") line = false) :
    lineStep st idx line = .ok st := by
  unfold lineStep
  simp only [h1, h2, h3, h4, if_false, Bool.false_eq_true]

/-! ## Parser claims: malformed headers, dropped records, early fields -/

/-- C4: an input line that begins like a `Concept` header but fails the
header grammar adds exactly one warning carrying that line's number
(`enumerate` index), creates no record, does not abort, and the remaining
lines are processed exactly as they would be from the same state. -/
theorem malformed_header_skipped (st : PState) (idx : Nat) (line : List Char)
    (rest : List (List Char))
    (h1 : startsW (strL "Concept") line = true)
    (h2 : parseConceptLine line = none) :
    runLines st idx (line :: rest) =
      runLines { st with warnings := st.warnings ++ [idx] } (idx + 1) rest :=
  runLines_cons_ok (lineStep_concept_bad h1 h2)

/-- Witness for `malformed_header_skipped`: the spec's own example line
`Concept : badformat`, followed by a valid header and verse. -/
theorem malformed_header_skipped_w :
    runLines initState 0
      (strL "Concept : badformat" ::
        [strL "Concept (Noun): walk-A", strL "Verse: Gen 1:1 He walked."]) =
    runLines { initState with warnings := initState.warnings ++ [0] } 1
      [strL "Concept (Noun): walk-A", strL "Verse: Gen 1:1 He walked."] :=
  malformed_header_skipped initState 0 (strL "Concept : badformat")
    [strL "Concept (Noun): walk-A", strL "Verse: Gen 1:1 He walked."]
    (by decide) (by decide)

/-- C9: a `Sample Sentence` or `Verse` line that arrives before any
Concept header line has been successfully parsed makes the run fail with
an uncaught error (attribute access on the absent in-progress record),
rather than skipping the line or emitting a warning. -/
theorem early_field_line_aborts (pre : List (List Char)) (l : List Char)
    (post : List (List Char))
    (hpre : ∀ p ∈ pre,
      ¬(startsW (strL "Concept") p = true ∧ (parseConceptLine p).isSome = true))
    (hl : startsW (strL "Sample Sentence") l = true ∨ startsW (strL "Verse") l = true) :
    runLines initState 0 (pre ++ l :: post) = .error () := by
  have hlC : startsW (strL "Concept") l = false := by
    rcases hl with h | h
    · exact startsW_excl (by rfl) (by rfl) (by decide) h
    · exact startsW_excl (by rfl) (by rfl) (by decide) h
  have main : ∀ pre2 st idx, st.current = none →
      (∀ p ∈ pre2,
        ¬(startsW (strL "Concept") p = true ∧ (parseConceptLine p).isSome = true)) →
      runLines st idx (pre2 ++ l :: post) = .error () := by
    intro pre2
    induction pre2 with
    | nil =>
      intro st idx hcur _
      rw [List.nil_append]
      rcases hl with h | h
      · exact runLines_cons_error (lineStep_sample_none hlC h hcur)
      · have hlS : startsW (strL "Sample Sentence") l = false :=
          startsW_excl (by rfl) (by rfl) (by decide) h
        exact runLines_cons_error (lineStep_verse_none hlC hlS h hcur)
    | cons p ps ih =>
      intro st idx hcur hp
      have hps : ∀ q ∈ ps,
          ¬(startsW (strL "Concept") q = true ∧ (parseConceptLine q).isSome = true) :=
        fun q hq => hp q (List.mem_cons_of_mem p hq)
      rw [List.cons_append]
      cases hC : startsW (strL "Concept") p with
      | true =>
        cases hparse : parseConceptLine p with
        | some v =>
          exact absurd ⟨hC, by rw [hparse]; rfl⟩ (hp p (List.mem_cons_self p ps))
        | none =>
          rw [runLines_cons_ok (lineStep_concept_bad hC hparse)]
          exact ih _ _ hcur hps
      | false =>
        cases hS : startsW (strL "Sample Sentence") p with
        | true => exact runLines_cons_error (lineStep_sample_none hC hS hcur)
        | false =>
          cases hV : startsW (strL "Verse") p with
          | true => exact runLines_cons_error (lineStep_verse_none hC hS hV hcur)
          | false =>
            cases hP : startsW (strL "Current Passage") p with
            | true =>
              rw [runLines_cons_ok (lineStep_passage hC hS hV hP)]
              exact ih _ _ hcur hps
            | false =>
              rw [runLines_cons_ok (lineStep_other hC hS hV hP)]
              exact ih _ _ hcur hps
  exact main pre initState 0 rfl hpre

/-- Witness for `early_field_line_aborts`: a file starting with a `Verse:`
line crashes immediately. -/
theorem early_field_line_aborts_w :
    runLines initState 0 ([] ++ strL "Verse: Gen 1:1 In the beginning." :: []) =
      .error () :=
  early_field_line_aborts [] (strL "Verse: Gen 1:1 In the beginning.") []
    (fun p hp => absurd hp (List.not_mem_nil p)) (Or.inr (by decide))

theorem warnsOf_cons (idx : Nat) (l : List Char) (ls : List (List Char)) :
    warnsOf idx (l :: ls) =
      (if startsW (strL "Concept") l && (parseConceptLine l).isNone then [idx] else [])
        ++ warnsOf (idx + 1) ls := rfl

/-- C5: a concept record is appended to its category group exactly when a
`Verse` line is received for it.  (i) Over any lines containing no `Verse`
line, a run started with an open record succeeds, never touches the
groups — so a concept opened by a header with no subsequent `Verse` line
before the next header or end of input is never appended — and the only
warnings added are those for malformed `Concept` header lines, so the drop
itself produces no warning or diagnostic.  (ii) Conversely a `Verse` line
received with an open record `i` appends `i` to its group. -/
theorem append_iff_verse :
    (∀ st idx lines, (∀ l ∈ lines, startsW (strL "Verse") l = false) →
      st.current.isSome = true →
      ∃ st2, runLines st idx lines = .ok st2 ∧ st2.groups = st.groups ∧
        st2.current.isSome = true ∧
        st2.warnings = st.warnings ++ warnsOf idx lines) ∧
    (∀ st idx line i, st.current = some i →
      startsW (strL "Verse") line = true →
      ∃ st2, lineStep st idx line = .ok st2 ∧
        st2.groups = appendTo st.groups (groupAt st2.store i) i) := by
  constructor
  · intro st idx lines
    induction lines generalizing st idx with
    | nil =>
      intro _ hcur
      exact ⟨st, rfl, rfl, hcur, by rw [show warnsOf idx [] = [] from rfl, List.append_nil]⟩
    | cons l ls ih =>
      intro hnoV hcur
      have hV : startsW (strL "Verse") l = false := hnoV l (List.mem_cons_self l ls)
      have hnoV2 : ∀ q ∈ ls, startsW (strL "Verse") q = false :=
        fun q hq => hnoV q (List.mem_cons_of_mem l hq)
      cases hC : startsW (strL "Concept") l with
      | true =>
        cases hparse : parseConceptLine l with
        | some v =>
          obtain ⟨cat, word, gloss⟩ := v
          obtain ⟨st2, hrun, hgr, hcur2, hwarn⟩ :=
            ih { st with
              current := some st.store.length,
              store := st.store ++ [⟨groupKey cat word, word, gloss.getD [], [], []⟩] }
              (idx + 1) hnoV2 (by rfl)
          refine ⟨st2, ?_, hgr, hcur2, ?_⟩
          · rw [runLines_cons_ok (lineStep_concept_ok hC hparse)]
            exact hrun
          · rw [hwarn, warnsOf_cons]
            rw [if_neg (by rw [hC, hparse]; simp)]
            rfl
        | none =>
          obtain ⟨st2, hrun, hgr, hcur2, hwarn⟩ :=
            ih { st with warnings := st.warnings ++ [idx] } (idx + 1) hnoV2 hcur
          refine ⟨st2, ?_, hgr, hcur2, ?_⟩
          · rw [runLines_cons_ok (lineStep_concept_bad hC hparse)]
            exact hrun
          · rw [hwarn, warnsOf_cons]
            rw [if_pos (by rw [hC, hparse]; rfl)]
            simp
      | false =>
        cases hS : startsW (strL "Sample Sentence") l with
        | true =>
          obtain ⟨i, hi⟩ := Option.isSome_iff_exists.mp hcur
          obtain ⟨st2, hrun, hgr, hcur2, hwarn⟩ :=
            ih { st with store := setSample st.store i (trim (l.drop 17)) }
              (idx + 1) hnoV2 hcur
          refine ⟨st2, ?_, hgr, hcur2, ?_⟩
          · rw [runLines_cons_ok (lineStep_sample_some hC hS hi)]
            exact hrun
          · rw [hwarn, warnsOf_cons, if_neg (by rw [hC]; simp)]
            rfl
        | false =>
          cases hP : startsW (strL "Current Passage") l with
          | true =>
            obtain ⟨st2, hrun, hgr, hcur2, hwarn⟩ :=
              ih { st with passage := trim (l.drop 17) } (idx + 1) hnoV2 hcur
            refine ⟨st2, ?_, hgr, hcur2, ?_⟩
            · rw [runLines_cons_ok (lineStep_passage hC hS hV hP)]
              exact hrun
            · rw [hwarn, warnsOf_cons, if_neg (by rw [hC]; simp)]
              rfl
          | false =>
            obtain ⟨st2, hrun, hgr, hcur2, hwarn⟩ := ih st (idx + 1) hnoV2 hcur
            refine ⟨st2, ?_, hgr, hcur2, ?_⟩
            · rw [runLines_cons_ok (lineStep_other hC hS hV hP)]
              exact hrun
            · rw [hwarn, warnsOf_cons, if_neg (by rw [hC]; simp)]
              rfl
  · intro st idx line i hi hV
    have hC : startsW (strL "Concept") line = false :=
      startsW_excl (by rfl) (by rfl) (by decide) hV
    have hS : startsW (strL "Sample Sentence") line = false :=
      startsW_excl (by rfl) (by rfl) (by decide) hV
    exact ⟨_, lineStep_verse_some hC hS hV hi, rfl⟩

/-- Witness for `append_iff_verse`: a header followed by a sample line and
a second header — the first concept is dropped with no warning and no
group change. -/
theorem append_iff_verse_w :
    ∃ st2, runLines { initState with
        current := some 0,
        store := [⟨strL "Nouns", strL "walk-A", [], [], []⟩] } 2
        [strL "Sample Sentence: He walks.", strL "Concept (Noun): run-A"] = .ok st2 ∧
      st2.groups = [] ∧ st2.current.isSome = true ∧
      st2.warnings = [] ++ warnsOf 2
        [strL "Sample Sentence: He walks.", strL "Concept (Noun): run-A"] :=
  append_iff_verse.1
    { initState with
      current := some 0,
      store := [⟨strL "Nouns", strL "walk-A", [], [], []⟩] } 2
    [strL "Sample Sentence: He walks.", strL "Concept (Noun): run-A"]
    (by decide) (by decide)

/-! ## The header grammar claim -/

theorem dropLit_append (p r : List Char) : dropLit p (p ++ r) = some r := by
  unfold dropLit startsW
  rw [List.take_left, if_pos (beq_iff_eq.mpr rfl), List.drop_left]

theorem conceptClass_ne_quote {c : Char} (h : conceptClass c = true) : c ≠ '\'' := by
  intro h2
  subst h2
  exact absurd h (by decide)

theorem isUpperCh_ne_quote {c : Char} (h : isUpperCh c = true) : c ≠ '\'' := by
  intro h2
  subst h2
  exact absurd h (by decide)

theorem isUpperCh_ne_dash {c : Char} (h : isUpperCh c = true) : c ≠ '-' := by
  intro h2
  subst h2
  exact absurd h (by decide)

theorem restOk_false_of : ∀ {r : List Char}, r ≠ [] → r[2]? ≠ some '\'' →
    restOk r = false
  | [], hne, _ => absurd rfl hne
  | [a], _, _ => rfl
  | [a, b], _, _ => rfl
  | a :: b :: q :: gs, _, hq => by
    have hq2 : (q == '\'') = false := beq_eq_false_iff_ne.mpr (by
      intro h2
      exact hq (by rw [h2]; simp))
    unfold restOk
    show (a == ' ' && b == ' ' && q == '\'' &&
      (match gs.reverse with
       | q2 :: _ :: _ => q2 == '\''
       | _ => false)) = false
    rw [hq2]
    simp

theorem lemmaOk_true {body : List Char} {u : Char} (hbody1 : body ≠ [])
    (hbodyC : ∀ c ∈ body, conceptClass c = true) (hu : isUpperCh u = true) :
    lemmaOk (body ++ ['-', u]) = true := by
  unfold lemmaOk
  rw [List.reverse_append,
    show (['-', u] : List Char).reverse = [u, '-'] from rfl,
    show ([u, '-'] ++ body.reverse : List Char) = u :: '-' :: body.reverse from rfl]
  show (isUpperCh u && ('-' == '-') && !body.reverse.isEmpty &&
    body.reverse.all conceptClass) = true
  have h2 : body.reverse.isEmpty = false := by
    cases hb : body.reverse.isEmpty with
    | false => rfl
    | true =>
      exact absurd (List.reverse_eq_nil_iff.mp (List.isEmpty_iff.mp hb)) hbody1
  have h3 : body.reverse.all conceptClass = true := by
    rw [List.all_reverse]
    exact List.all_eq_true.mpr hbodyC
  rw [hu, h2, h3]
  rfl

theorem restOk_gloss {g : List Char} (hg : g ≠ []) :
    restOk ([' ', ' ', '\''] ++ g ++ ['\'']) = true := by
  obtain ⟨c, cs, hrev⟩ : ∃ c cs, g.reverse = c :: cs := by
    cases hrev : g.reverse with
    | nil => exact absurd (List.reverse_eq_nil_iff.mp hrev) hg
    | cons c cs => exact ⟨c, cs, rfl⟩
  have hr2 : (g ++ ['\'']).reverse = '\'' :: c :: cs := by
    rw [List.reverse_append, hrev]
    rfl
  rw [show ([' ', ' ', '\''] ++ g ++ ['\''] : List Char) =
    ' ' :: ' ' :: '\'' :: (g ++ ['\'']) from by simp]
  unfold restOk
  show (' ' == ' ' && (' ' == ' ') && ('\'' == '\'') &&
    (match (g ++ ['\'']).reverse with
     | q2 :: _ :: _ => q2 == '\''
     | _ => false)) = true
  rw [hr2]
  rfl

theorem glossOf_gloss (g : List Char) :
    glossOf ([' ', ' ', '\''] ++ g ++ ['\'']) = some g := by
  rw [show ([' ', ' ', '\''] ++ g ++ ['\''] : List Char) =
    ' ' :: ' ' :: '\'' :: (g ++ ['\'']) from by simp]
  unfold glossOf
  show some (g ++ ['\'']).dropLast = some g
  rw [List.dropLast_concat]

theorem minSplitAux_finds {tail : List Char} {k : Nat}
    (hk : (lemmaOk (tail.take k) && restOk (tail.drop k)) = true)
    (hmin : ∀ j, j < k → (lemmaOk (tail.take j) && restOk (tail.drop j)) = false) :
    ∀ fuel j, j ≤ k → k < j + fuel → minSplitAux tail fuel j = some k := by
  intro fuel
  induction fuel with
  | zero =>
    intro j hj hk2
    omega
  | succ f ih =>
    intro j hj hk2
    unfold minSplitAux
    by_cases hjk : j = k
    · subst hjk
      rw [if_pos hk]
    · have hjlt : j < k := by omega
      rw [if_neg (by rw [hmin j hjlt]; simp)]
      exact ih (j + 1) (by omega) (by omega)

theorem baseForm_strip {body : List Char} {u : Char} (hu2 : u ≠ '-') :
    baseForm (body ++ ['-', u]) = some body := by
  unfold baseForm rIndexOf
  rw [List.reverse_append,
    show (['-', u] : List Char).reverse = [u, '-'] from rfl,
    show ([u, '-'] ++ body.reverse : List Char) = u :: '-' :: body.reverse from rfl]
  rw [List.findIdx?_cons, if_neg (by simp [hu2]), List.findIdx?_cons,
    if_pos (by simp)]
  simp only [Option.map_some']
  rw [show (body ++ ['-', u]).length - 1 - (0 + 1) = body.length from by
    simp only [List.length_append, List.length_cons, List.length_nil]
    omega]
  rw [List.take_left]

theorem parseConceptLine_render (cat body glP : List Char) (u : Char)
    (hcat1 : cat ≠ []) (hcatA : ∀ c ∈ cat, isAsciiLetter c = true)
    (hbody1 : body ≠ []) (hbodyC : ∀ c ∈ body, conceptClass c = true)
    (hu : isUpperCh u = true)
    (hrest : restOk glP = true)
    (hg0 : glP[0]? ≠ some '\'') (hg1 : glP[1]? ≠ some '\'') :
    parseConceptLine (strL "Concept (" ++ cat ++ strL "): " ++ body ++ ['-', u] ++ glP) =
      some (cat, body ++ ['-', u], glossOf glP) := by
  have hLq : ∀ c ∈ body ++ ['-', u], c ≠ '\'' := by
    intro c hc
    rcases List.mem_append.mp hc with hc | hc
    · exact conceptClass_ne_quote (hbodyC c hc)
    · rcases List.mem_cons.mp hc with rfl | hc
      · decide
      · rcases List.mem_singleton.mp hc with rfl
        exact isUpperCh_ne_quote hu
  have hshape : strL "Concept (" ++ cat ++ strL "): " ++ body ++ ['-', u] ++ glP =
      strL "Concept (" ++ (cat ++ (')' :: ':' :: ' ' :: ((body ++ ['-', u]) ++ glP))) := by
    simp only [List.append_assoc]
    rfl
  have htake : (cat ++ ')' :: ':' :: ' ' :: ((body ++ ['-', u]) ++ glP)).takeWhile
      isAsciiLetter = cat :=
    takeWhile_all_append _ _ hcatA (by decide)
  have hdrop : (cat ++ ')' :: ':' :: ' ' :: ((body ++ ['-', u]) ++ glP)).drop
      cat.length = ')' :: ':' :: ' ' :: ((body ++ ['-', u]) ++ glP) :=
    List.drop_left _ _
  have hdl2 : dropLit (strL "): ") (')' :: ':' :: ' ' :: ((body ++ ['-', u]) ++ glP)) =
      some ((body ++ ['-', u]) ++ glP) :=
    dropLit_append (strL "): ") ((body ++ ['-', u]) ++ glP)
  have hk : (lemmaOk (((body ++ ['-', u]) ++ glP).take (body ++ ['-', u]).length) &&
      restOk (((body ++ ['-', u]) ++ glP).drop (body ++ ['-', u]).length)) = true := by
    rw [List.take_left, List.drop_left, lemmaOk_true hbody1 hbodyC hu, hrest]
    rfl
  have hmin : ∀ j, j < (body ++ ['-', u]).length →
      (lemmaOk (((body ++ ['-', u]) ++ glP).take j) &&
        restOk (((body ++ ['-', u]) ++ glP).drop j)) = false := by
    intro j hj
    have hne : ((body ++ ['-', u]) ++ glP).drop j ≠ [] := by
      intro h
      have h2 := congrArg List.length h
      rw [List.length_drop, List.length_append] at h2
      simp only [List.length_nil] at h2
      omega
    have hq : (((body ++ ['-', u]) ++ glP).drop j)[2]? ≠ some '\'' := by
      rw [List.getElem?_drop]
      by_cases hcase : j + 2 < (body ++ ['-', u]).length
      · rw [List.getElem?_append_left hcase]
        intro hsome
        exact hLq _ (List.getElem?_mem hsome) rfl
      · rw [List.getElem?_append_right (by omega)]
        have h01 : j + 2 - (body ++ ['-', u]).length = 0 ∨
            j + 2 - (body ++ ['-', u]).length = 1 := by omega
        rcases h01 with h0 | h0 <;> rw [h0]
        · exact hg0
        · exact hg1
    rw [restOk_false_of hne hq]
    simp
  have hfind : minSplitAux ((body ++ ['-', u]) ++ glP)
      (((body ++ ['-', u]) ++ glP).length + 1) 0 = some (body ++ ['-', u]).length :=
    minSplitAux_finds hk hmin _ 0 (by omega)
      (by rw [List.length_append (body ++ ['-', u])]; omega)
  rw [hshape]
  unfold parseConceptLine
  simp only [dropLit_append]
  rw [htake]
  rw [if_neg (by simp [List.isEmpty_iff, hcat1])]
  rw [hdrop]
  simp only [hdl2, hfind]
  rw [List.take_left, List.drop_left]

/-- C3: for every input line matching the Concept header grammar —
category of ASCII letters in parentheses, lemma made of the class
`[.a-zA-Z0-9- ]` ending in a hyphen plus exactly one upper-case letter,
optional nonempty quoted gloss — the parser extracts exactly that category
and that lemma-with-sense, and stripping the sense tag yields exactly the
text preceding the final hyphen of the lemma-with-sense. -/
theorem header_parse_exact (cat body : List Char) (u : Char) (gl : Option (List Char))
    (hcat1 : cat ≠ []) (hcatA : ∀ c ∈ cat, isAsciiLetter c = true)
    (hbody1 : body ≠ []) (hbodyC : ∀ c ∈ body, conceptClass c = true)
    (hu : isUpperCh u = true)
    (hgl : ∀ g, gl = some g → g ≠ []) :
    parseConceptLine (renderHeader cat body u gl) =
      some (cat, body ++ ['-', u], gl) ∧
    baseForm (body ++ ['-', u]) = some body := by
  refine ⟨?_, baseForm_strip (isUpperCh_ne_dash hu)⟩
  cases gl with
  | none =>
    exact parseConceptLine_render cat body [] u hcat1 hcatA hbody1 hbodyC hu rfl
      (by simp) (by simp)
  | some g =>
    have hg := hgl g rfl
    have h := parseConceptLine_render cat body ([' ', ' ', '\''] ++ g ++ ['\'']) u
      hcat1 hcatA hbody1 hbodyC hu (restOk_gloss hg)
      (by rw [show (([' ', ' ', '\''] ++ g ++ ['\''] : List Char))[0]? = some ' '
            from rfl]
          decide)
      (by rw [show (([' ', ' ', '\''] ++ g ++ ['\''] : List Char))[1]? = some ' '
            from rfl]
          decide)
    rw [glossOf_gloss] at h
    exact h

/-- Witness for `header_parse_exact`: the header `Concept (Noun): walk-A`. -/
theorem header_parse_exact_w :
    parseConceptLine (renderHeader (strL "Noun") (strL "walk") 'A' none) =
      some (strL "Noun", strL "walk" ++ ['-', 'A'], none) ∧
    baseForm (strL "walk" ++ ['-', 'A']) = some (strL "walk") :=
  header_parse_exact (strL "Noun") (strL "walk") 'A' none
    (by decide) (by decide) (by decide) (by decide) (by decide)
    (fun g hg => by cases hg)

/-! ## Record identity and immutability -/

theorem getElem?_lt {l : List UnlinkedConcept} {i : Nat} {c : UnlinkedConcept}
    (h : l[i]? = some c) : i < l.length := by
  by_contra hn
  rw [List.getElem?_eq_none (by omega)] at h
  cases h

theorem setSample_length (st : List UnlinkedConcept) (i : Nat) (v : List Char) :
    (setSample st i v).length = st.length := by
  unfold setSample
  cases h : st[i]? with
  | none => rfl
  | some c => exact List.length_set st i _

theorem setVerse_length (st : List UnlinkedConcept) (i : Nat) (v : List Char) :
    (setVerse st i v).length = st.length := by
  unfold setVerse
  cases h : st[i]? with
  | none => rfl
  | some c => exact List.length_set st i _

theorem setSample_getElem?_ne (st : List UnlinkedConcept) (i : Nat) (v : List Char)
    {j : Nat} (hj : j ≠ i) : (setSample st i v)[j]? = st[j]? := by
  unfold setSample
  cases h : st[i]? with
  | none => rfl
  | some c => exact List.getElem?_set_ne hj.symm

theorem setVerse_getElem?_ne (st : List UnlinkedConcept) (i : Nat) (v : List Char)
    {j : Nat} (hj : j ≠ i) : (setVerse st i v)[j]? = st[j]? := by
  unfold setVerse
  cases h : st[i]? with
  | none => rfl
  | some c => exact List.getElem?_set_ne hj.symm

theorem setSample_group (st : List UnlinkedConcept) (i : Nat) (v : List Char) (j : Nat) :
    ((setSample st i v)[j]?).map UnlinkedConcept.group =
      (st[j]?).map UnlinkedConcept.group := by
  by_cases hj : j = i
  · subst hj
    unfold setSample
    cases h : st[j]? with
    | none =>
      show (st[j]?).map UnlinkedConcept.group = Option.map UnlinkedConcept.group none
      rw [h]
    | some c =>
      rw [List.getElem?_set_self (getElem?_lt h)]
      rfl
  · rw [setSample_getElem?_ne st i v hj]

theorem setVerse_group (st : List UnlinkedConcept) (i : Nat) (v : List Char) (j : Nat) :
    ((setVerse st i v)[j]?).map UnlinkedConcept.group =
      (st[j]?).map UnlinkedConcept.group := by
  by_cases hj : j = i
  · subst hj
    unfold setVerse
    cases h : st[j]? with
    | none =>
      show (st[j]?).map UnlinkedConcept.group = Option.map UnlinkedConcept.group none
      rw [h]
    | some c =>
      rw [List.getElem?_set_self (getElem?_lt h)]
      rfl
  · rw [setVerse_getElem?_ne st i v hj]

theorem idsOf_cons (k : List Char) (ids : List Nat)
    (rest : List (List Char × List Nat)) :
    idsOf ((k, ids) :: rest) = ids ++ idsOf rest := rfl

theorem count_appendTo (g : List (List Char × List Nat)) (k : List Char) (i x : Nat) :
    countId x (appendTo g k i) = countId x g + (if x = i then 1 else 0) := by
  induction g with
  | nil =>
    unfold countId appendTo
    rw [idsOf_cons]
    show ([i] ++ idsOf []).count x = (idsOf []).count x + _
    rw [List.count_append]
    by_cases hx : x = i
    · subst hx; simp [idsOf, List.count_cons]
    · simp [idsOf, List.count_cons, hx, Ne.symm hx]
  | cons p rest ih =>
    obtain ⟨k2, ids⟩ := p
    unfold appendTo
    by_cases hk : (k2 == k) = true
    · rw [if_pos hk]
      unfold countId
      rw [idsOf_cons, idsOf_cons, List.count_append, List.count_append,
        List.count_append]
      by_cases hx : x = i
      · subst hx; simp [List.count_cons]; omega
      · simp [List.count_cons, hx, Ne.symm hx]
    · rw [if_neg hk]
      unfold countId at ih ⊢
      rw [idsOf_cons, idsOf_cons, List.count_append, List.count_append, ih]
      omega

theorem countId_mem {g : List (List Char × List Nat)} {i : Nat}
    (h : i ∈ idsOf g) : 1 ≤ countId i g :=
  List.count_pos_iff.mpr h

theorem countId_not_mem {g : List (List Char × List Nat)} {i : Nat}
    (h : i ∉ idsOf g) : countId i g = 0 :=
  List.count_eq_zero.mpr h

theorem wfLines_cons (m : PMode) (l : List Char) (ls : List (List Char)) :
    wfLines m (l :: ls) =
      ((if startsW (strL "Concept") l then true
        else if startsW (strL "Sample Sentence") l then m == .opened
        else if startsW (strL "Verse") l then m == .opened
        else true) && wfLines (stepMode m l) ls) := rfl

theorem modeAfter_cons (m : PMode) (l : List Char) (ls : List (List Char)) :
    modeAfter m (l :: ls) = modeAfter (stepMode m l) ls := rfl

theorem wfLines_append (m : PMode) (a b : List (List Char)) :
    wfLines m (a ++ b) = (wfLines m a && wfLines (modeAfter m a) b) := by
  induction a generalizing m with
  | nil =>
    rw [List.nil_append, show wfLines m [] = true from rfl,
      show modeAfter m [] = m from rfl, Bool.true_and]
  | cons l ls ih =>
    rw [List.cons_append, wfLines_cons, wfLines_cons, modeAfter_cons, ih,
      Bool.and_assoc]

/-- Master invariant of `import_concepts` runs over well-formed input:
the run succeeds, group membership stays unique, and records already in a
group are never modified again (their whole stored value is preserved),
while the `group` field of every stored record is preserved
unconditionally. -/
theorem run_preserve :
    ∀ (lines : List (List Char)) (m : PMode) (st : PState) (idx : Nat),
      wfLines m lines = true → modeInv m st → stInv st →
      ∃ st2, runLines st idx lines = .ok st2 ∧
        modeInv (modeAfter m lines) st2 ∧ stInv st2 ∧
        st.store.length ≤ st2.store.length ∧
        (∀ i, countId i st.groups ≤ countId i st2.groups) ∧
        (∀ i, i ∈ idsOf st.groups → st2.store[i]? = st.store[i]?) ∧
        (∀ i, i < st.store.length →
          (st2.store[i]?).map UnlinkedConcept.group =
            (st.store[i]?).map UnlinkedConcept.group) := by
  intro lines
  induction lines with
  | nil =>
    intro m st idx _ hminv hstinv
    exact ⟨st, rfl, hminv, hstinv, le_refl _, fun i => le_refl _,
      fun i _ => rfl, fun i _ => rfl⟩
  | cons l ls ih =>
    intro m st idx hwf hminv hstinv
    rw [wfLines_cons] at hwf
    obtain ⟨hcond, hwfrest⟩ := Bool.and_eq_true_iff.mp hwf
    rw [modeAfter_cons]
    cases hC : startsW (strL "Concept") l with
    | true =>
      cases hparse : parseConceptLine l with
      | some v =>
        obtain ⟨cat, word, gloss⟩ := v
        have hstep : stepMode m l = .opened := by
          unfold stepMode
          simp only [hC, hparse, if_true, Option.isSome_some]
        rw [hstep] at hwfrest
        have hfresh : countId st.store.length st.groups = 0 :=
          countId_not_mem (fun hmem => absurd (hstinv.2 _ hmem) (lt_irrefl _))
        obtain ⟨st2, hrun, hminv2, hstinv2, hlen2, hcnt2, hpres2, hgrp2⟩ :=
          ih .opened { st with
            current := some st.store.length,
            store := st.store ++
              [⟨groupKey cat word, word, gloss.getD [], [], []⟩] } (idx + 1)
            hwfrest
            ⟨st.store.length, rfl, by simp, hfresh⟩
            ⟨hstinv.1, fun i hi => by
              have := hstinv.2 i hi
              simp only [List.length_append, List.length_cons, List.length_nil]
              omega⟩
        refine ⟨st2, ?_, ?_, hstinv2, ?_, hcnt2, ?_, ?_⟩
        · rw [runLines_cons_ok (lineStep_concept_ok hC hparse)]
          exact hrun
        · rw [hstep]
          exact hminv2
        · simp only [List.length_append, List.length_cons, List.length_nil] at hlen2
          omega
        · intro i hi
          rw [hpres2 i hi, List.getElem?_append_left (hstinv.2 i hi)]
        · intro i hi
          rw [hgrp2 i (by
              simp only [List.length_append, List.length_cons, List.length_nil]
              omega),
            List.getElem?_append_left hi]
      | none =>
        have hstep : stepMode m l = m := by
          unfold stepMode
          simp only [hC, hparse, if_true, Option.isSome_none, Bool.false_eq_true,
            if_false]
        rw [hstep] at hwfrest
        obtain ⟨st2, hrun, hminv2, hstinv2, hlen2, hcnt2, hpres2, hgrp2⟩ :=
          ih m { st with warnings := st.warnings ++ [idx] } (idx + 1)
            hwfrest hminv hstinv
        refine ⟨st2, ?_, ?_, hstinv2, hlen2, hcnt2, hpres2, hgrp2⟩
        · rw [runLines_cons_ok (lineStep_concept_bad hC hparse)]
          exact hrun
        · rw [hstep]
          exact hminv2
    | false =>
      cases hS : startsW (strL "Sample Sentence") l with
      | true =>
        have hm : m = .opened := by
          have h2 : (m == PMode.opened) = true := by
            simpa only [hC, hS, if_true, if_false, Bool.false_eq_true] using hcond
          exact beq_iff_eq.mp h2
        subst hm
        obtain ⟨i, hcur, hilt, hcount⟩ := hminv
        have hstep : stepMode .opened l = .opened := by
          unfold stepMode
          simp only [hC, hS, if_true, if_false, Bool.false_eq_true]
        rw [hstep] at hwfrest
        have hne : ∀ j, j ∈ idsOf st.groups → j ≠ i := by
          intro j hj hji
          subst hji
          exact absurd (countId_mem hj) (by rw [hcount]; omega)
        obtain ⟨st2, hrun, hminv2, hstinv2, hlen2, hcnt2, hpres2, hgrp2⟩ :=
          ih .opened { st with
            store := setSample st.store i (trim (l.drop 17)) } (idx + 1)
            hwfrest
            ⟨i, hcur, by rw [setSample_length]; exact hilt, hcount⟩
            ⟨hstinv.1, fun j hj => by
              rw [setSample_length]
              exact hstinv.2 j hj⟩
        refine ⟨st2, ?_, ?_, hstinv2, ?_, hcnt2, ?_, ?_⟩
        · rw [runLines_cons_ok (lineStep_sample_some hC hS hcur)]
          exact hrun
        · rw [hstep]
          exact hminv2
        · rw [setSample_length] at hlen2
          exact hlen2
        · intro j hj
          rw [hpres2 j hj, setSample_getElem?_ne st.store i _ (hne j hj)]
        · intro j hj
          rw [hgrp2 j (by rw [setSample_length]; exact hj),
            setSample_group st.store i _ j]
      | false =>
        cases hV : startsW (strL "Verse") l with
        | true =>
          have hm : m = .opened := by
            have h2 : (m == PMode.opened) = true := by
              simpa only [hC, hS, hV, if_true, if_false, Bool.false_eq_true]
                using hcond
            exact beq_iff_eq.mp h2
          subst hm
          obtain ⟨i, hcur, hilt, hcount⟩ := hminv
          have hstep : stepMode .opened l = .closedM := by
            unfold stepMode
            simp only [hC, hS, hV, if_true, if_false, Bool.false_eq_true]
          rw [hstep] at hwfrest
          have hne : ∀ j, j ∈ idsOf st.groups → j ≠ i := by
            intro j hj hji
            subst hji
            exact absurd (countId_mem hj) (by rw [hcount]; omega)
          obtain ⟨st2, hrun, hminv2, hstinv2, hlen2, hcnt2, hpres2, hgrp2⟩ :=
            ih .closedM { st with
              store := setVerse st.store i (trim (l.drop 7)),
              groups := appendTo st.groups
                (groupAt (setVerse st.store i (trim (l.drop 7))) i) i } (idx + 1)
              hwfrest
              (by show st.current.isSome = true; rw [hcur]; rfl)
              ⟨fun j => by
                rw [count_appendTo]
                by_cases hji : j = i
                · subst hji
                  rw [hcount, if_pos rfl]
                · rw [if_neg hji]
                  have := hstinv.1 j
                  omega,
              fun j hj => by
                rw [setVerse_length]
                have hjc := countId_mem hj
                rw [count_appendTo] at hjc
                by_cases hji : j = i
                · subst hji
                  exact hilt
                · rw [if_neg hji] at hjc
                  simp only [Nat.add_zero] at hjc
                  have hpos : 0 < countId j st.groups := by omega
                  exact hstinv.2 j (List.count_pos_iff.mp hpos)⟩
          refine ⟨st2, ?_, ?_, hstinv2, ?_, ?_, ?_, ?_⟩
          · rw [runLines_cons_ok (lineStep_verse_some hC hS hV hcur)]
            exact hrun
          · rw [hstep]
            exact hminv2
          · rw [setVerse_length] at hlen2
            exact hlen2
          · intro j
            refine le_trans ?_ (hcnt2 j)
            rw [count_appendTo]
            by_cases hji : j = i
            · rw [if_pos hji]
              omega
            · rw [if_neg hji]
              omega
          · intro j hj
            rw [hpres2 j (by
                apply List.count_pos_iff.mp
                show 0 < countId j _
                rw [count_appendTo, if_neg (hne j hj)]
                have := countId_mem hj
                omega),
              setVerse_getElem?_ne st.store i _ (hne j hj)]
          · intro j hj
            rw [hgrp2 j (by rw [setVerse_length]; exact hj),
              setVerse_group st.store i _ j]
        | false =>
          cases hP : startsW (strL "Current Passage") l with
          | true =>
            have hstep : stepMode m l = m := by
              unfold stepMode
              simp only [hC, hS, hV, if_true, if_false, Bool.false_eq_true]
            rw [hstep] at hwfrest
            obtain ⟨st2, hrun, hminv2, hstinv2, hlen2, hcnt2, hpres2, hgrp2⟩ :=
              ih m { st with passage := trim (l.drop 17) } (idx + 1)
                hwfrest hminv hstinv
            refine ⟨st2, ?_, ?_, hstinv2, hlen2, hcnt2, hpres2, hgrp2⟩
            · rw [runLines_cons_ok (lineStep_passage hC hS hV hP)]
              exact hrun
            · rw [hstep]
              exact hminv2
          | false =>
            have hstep : stepMode m l = m := by
              unfold stepMode
              simp only [hC, hS, hV, if_true, if_false, Bool.false_eq_true]
            rw [hstep] at hwfrest
            obtain ⟨st2, hrun, hminv2, hstinv2, hlen2, hcnt2, hpres2, hgrp2⟩ :=
              ih m st (idx + 1) hwfrest hminv hstinv
            refine ⟨st2, ?_, ?_, hstinv2, hlen2, hcnt2, hpres2, hgrp2⟩
            · rw [runLines_cons_ok (lineStep_other hC hS hV hP)]
              exact hrun
            · rw [hstep]
              exact hminv2

/-- C6 counterexample: with a second `Verse:` line for the same concept the
same record (identifier 0) is appended twice to its group — so it does not
appear exactly once across all group lists — and its `verse` field is
rewritten after it was first closed and appended (it was `Gen 1:1 a.` at
append time, as the second run shows, but ends as `Gen 1:2 b.`). -/
theorem record_mutated_after_append_cex :
    ((okOf (runLines initState 0
        [strL "Concept (Noun): walk-A", strL "Verse: Gen 1:1 a.",
         strL "Verse: Gen 1:2 b."])).map
      (fun st => (countId 0 st.groups,
        (st.store[0]?).map UnlinkedConcept.verse))) =
      some (2, some (strL "Gen 1:2 b.")) ∧
    ((okOf (runLines initState 0
        [strL "Concept (Noun): walk-A", strL "Verse: Gen 1:1 a."])).map
      (fun st => (st.store[0]?).map UnlinkedConcept.verse)) =
      some (some (strL "Gen 1:1 a.")) := by
  constructor
  · decide
  · decide

/-- C6 (amended): for every input in which each `Sample Sentence`/`Verse`
line arrives while a record is open and not yet appended (so no concept
gets a second `Verse:` line, and samples precede the verse), the run
succeeds, every record in the output belongs to exactly one category group
— its identifier occurs exactly once across all group lists — the grouping
key is computed once at parse time and never changes (the `group` field of
every stored record is the same in every later state), and no field of a
record is modified after the record has been closed and appended (its
stored value at any intermediate state in which it is grouped equals its
final value). -/
theorem record_unique_and_immutable (lines : List (List Char))
    (hwf : wfLines .noCur lines = true) :
    ∃ st2, runLines initState 0 lines = .ok st2 ∧
      (∀ i ∈ idsOf st2.groups, countId i st2.groups = 1) ∧
      (∀ n stn, runLines initState 0 (lines.take n) = .ok stn →
        (∀ i ∈ idsOf stn.groups, st2.store[i]? = stn.store[i]?) ∧
        (∀ i, i < stn.store.length →
          (st2.store[i]?).map UnlinkedConcept.group =
            (stn.store[i]?).map UnlinkedConcept.group)) := by
  have hInit : stInv initState := by
    constructor
    · intro i
      show List.count i (idsOf []) ≤ 1
      simp [idsOf]
    · intro i hi
      have hi2 : i ∈ ([] : List Nat) := hi
      simp at hi2
  obtain ⟨st2, hrun, _, hstinv2, _, _, _, _⟩ :=
    run_preserve lines .noCur initState 0 hwf rfl hInit
  refine ⟨st2, hrun, fun i hi => le_antisymm (hstinv2.1 i) (countId_mem hi), ?_⟩
  intro n stn hstn
  have hdec : lines = lines.take n ++ lines.drop n := (List.take_append_drop n lines).symm
  have hwf2 : wfLines .noCur (lines.take n ++ lines.drop n) = true := by
    rw [← hdec]
    exact hwf
  rw [wfLines_append] at hwf2
  obtain ⟨hwfa, hwfb⟩ := Bool.and_eq_true_iff.mp hwf2
  obtain ⟨stn2, hrun2, hminvn, hstinvn, _, _, _, _⟩ :=
    run_preserve (lines.take n) .noCur initState 0 hwfa rfl hInit
  have hsame : stn2 = stn := by
    rw [hstn] at hrun2
    exact (Except.ok.inj hrun2).symm
  subst hsame
  obtain ⟨st2b, hrun3, _, _, _, _, hpres3, hgrp3⟩ :=
    run_preserve (lines.drop n) (modeAfter .noCur (lines.take n)) stn2
      (0 + (lines.take n).length) hwfb hminvn hstinvn
  have hcomb : runLines initState 0 lines = .ok st2b := by
    conv_lhs => rw [hdec]
    rw [runLines_append_ok (lines.drop n) hrun2]
    exact hrun3
  have hsame2 : st2b = st2 := by
    rw [hrun] at hcomb
    exact (Except.ok.inj hcomb).symm
  subst hsame2
  exact ⟨hpres3, hgrp3⟩

/-- Witness for `record_unique_and_immutable` at a concrete two-concept
input. -/
theorem record_unique_and_immutable_w :
    ∃ st2, runLines initState 0
        [strL "Concept (Noun): walk-A", strL "Sample Sentence: He walks.",
         strL "Verse: Gen 1:1 He walked.", strL "Concept (Verb): run-A",
         strL "Verse: Gen 1:2 They run."] = .ok st2 ∧
      (∀ i ∈ idsOf st2.groups, countId i st2.groups = 1) ∧
      (∀ n stn, runLines initState 0
          (List.take n
            [strL "Concept (Noun): walk-A", strL "Sample Sentence: He walks.",
             strL "Verse: Gen 1:1 He walked.", strL "Concept (Verb): run-A",
             strL "Verse: Gen 1:2 They run."]) = .ok stn →
        (∀ i ∈ idsOf stn.groups, st2.store[i]? = stn.store[i]?) ∧
        (∀ i, i < stn.store.length →
          (st2.store[i]?).map UnlinkedConcept.group =
            (stn.store[i]?).map UnlinkedConcept.group)) :=
  record_unique_and_immutable
    [strL "Concept (Noun): walk-A", strL "Sample Sentence: He walks.",
     strL "Verse: Gen 1:1 He walked.", strL "Concept (Verb): run-A",
     strL "Verse: Gen 1:2 They run."] (by decide)

/-- C7 (code bug): the Proper Nouns table is emitted in source order —
`create_names_tables` iterates `groups['Proper Nouns']` without the
`sorted(...)` that `create_table` applies to every other category —
contradicting the module docstring ("The concepts are sorted
alphabetically and put into tables") and the claim.  First conjunct: the
Proper Nouns rows come out `Zed-A, Abel-B` while their alphabetical order
is `Abel-B, Zed-A`.  Second conjunct: a regular category (Nouns) IS
sorted. -/
theorem proper_nouns_not_sorted :
    (((okOf (runLines initState 0
        [strL "Concept (Noun): Zed-A", strL "Verse: Gen 1:1 x.",
         strL "Concept (Noun): Abel-B", strL "Verse: Gen 1:2 y."])).map
        (fun st => ((properRows st).map UnlinkedConcept.word,
          (sortByWord (properRows st)).map UnlinkedConcept.word)) =
      some ([strL "Zed-A", strL "Abel-B"], [strL "Abel-B", strL "Zed-A"])) ∧
    [strL "Zed-A", strL "Abel-B"] ≠ [strL "Abel-B", strL "Zed-A"]) ∧
    ((okOf (runLines initState 0
        [strL "Concept (Noun): zed-A", strL "Verse: Gen 1:1 x.",
         strL "Concept (Noun): abel-B", strL "Verse: Gen 1:2 y."])).map
        (fun st => (tableRows st (strL "Nouns")).map UnlinkedConcept.word) =
      some [strL "abel-B", strL "zed-A"]) := by
  refine ⟨⟨?_, ?_⟩, ?_⟩
  · decide
  · decide
  · decide
